import Mathlib

/-!
Verification of the greedy axis-parallel point-separation program
(src/main.c of yzhou65/sep_points).

The C program keeps, per instance, a complete pairwise connectivity graph
over the input points (`mypoints[i].connections`, counted by the global
`num_edges`), a pool of candidate separating lines generated once by
`pre_separate` (midpoints of consecutive points in x- and y-sorted order),
and a greedy loop in `main` that repeatedly commits the candidate breaking
the most links (`links_to_break`) via `finalize_lines` until no links
remain.

Modelling conventions:
* C `int` coordinates become `Int`; the C `float` line coordinates and
  comparisons become `ℚ`.  On the values the program manipulates ---
  integer point coordinates converted to float, one addition and one
  halving --- IEEE binary32 arithmetic is exact as long as the coordinate
  magnitudes stay within 2^23 (`FloatExact`), so `ℚ` models it exactly on
  that domain, and the termination/selection/progress theorems carry that
  bound as a proviso.  Outside it the `(float)` casts round
  (`floatOfInt`, round to nearest, ties to even): distinct coordinates
  can collapse to one float, and the engine run on the cast coordinates
  (`castPts`) --- exact for the collapse instances used here, where every
  post-cast value is a small multiple of a power of two --- exhibits
  non-termination of the C loop.
* The C `unsigned int` counters are `Nat` with explicit `% 2^32` at the
  operations where wrap-around can occur (`num_points - 1`,
  `num_edges -= 2`, `num_edges++`).
* Pointers `mypoint*` become point indices (the `id` field assigned by
  `link_points` equals the index in `mypoints`); the `connections` array
  becomes the Boolean function `conn` (`NULL` = `false`).
* `lines[k] = NULL` (a consumed pool slot) becomes `none`.
* The `while (num_edges > 0)` loop becomes a fuel-indexed iteration `run`;
  termination claims are stated as: enough fuel drives `num_edges` to `0`
  and extra fuel is never used.
* Out-of-range array reads (undefined behaviour in C, reachable only for
  the `num_points = 0` underflow of `pre_separate`) are modelled by `getD`
  defaults.
-/

set_option maxRecDepth 8192

namespace SepPoints

/-- Width modulus of the C `unsigned int` type. -/
def U32 : Nat := 2 ^ 32

/-- Unsigned decrement, modelling the C expression `num_points - 1`. -/
def u32sub1 (a : Nat) : Nat := (a + (U32 - 1)) % U32

/-- Unsigned decrement by two, modelling `num_edges -= 2`. -/
def u32sub2 (a : Nat) : Nat := (a + (U32 - 2)) % U32

/-- Unsigned increment, modelling `num_edges++`. -/
def u32add1 (a : Nat) : Nat := (a + 1) % U32

/-- A point (C `struct Point`): integer coordinates scanned with `%d`.
The `id` field (set to the array index by `link_points`) is represented
implicitly by position, and the `connections` array lives in `EngState`. -/
structure Pt where
  x : Int
  y : Int
deriving DecidableEq

/-- C `enum Axis`. -/
inductive Axis where
  | V
  | H
deriving DecidableEq

/-- C `struct Line`: an axis tag and a (float, here `ℚ`) coordinate. -/
structure Line where
  axis : Axis
  coord : ℚ
deriving DecidableEq

/-- The mutable per-instance globals of main.c: the connection matrix
(`mypoints[_].connections`), the active directed-link counter `num_edges`,
the candidate pool `lines` (`none` = consumed slot), and the committed
lines `final_lines` (whose length is `num_lines`). -/
structure EngState where
  conn : Nat → Nat → Bool
  num_edges : Nat
  lines : List (Option Line)
  final_lines : List Line

/-- The read-only per-instance data: the points in input order (which is
also `x_points`, since `read_file` fills `x_points[i] = &mypoints[i]` and
the input is pre-sorted by x) and the y-sorted order `y_points`, kept as a
list of point indices. -/
structure Ctx where
  pts : List Pt
  yord : List Nat

/-- Default point used for modelling out-of-range reads. -/
def dfltPt : Pt := ⟨0, 0⟩

/-- The point stored at index `k` of `mypoints`. -/
def ptAt (ctx : Ctx) (k : Nat) : Pt := ctx.pts.getD k dfltPt

/-- The order array used for an axis: `x_points` (input order) for V,
`y_points` for H. -/
def orderOf (ctx : Ctx) : Axis → List Nat
  | Axis.V => List.range ctx.pts.length
  | Axis.H => ctx.yord

/-- The coordinate of a point on an axis, as a float-modelling rational. -/
def axisQ (p : Pt) : Axis → ℚ
  | Axis.V => (p.x : ℚ)
  | Axis.H => (p.y : ℚ)

/-- The coordinates along the sorted order of an axis, exactly the values
scanned by `closest_point` (`x_points[i]->x` resp. `y_points[i]->y`). -/
def coordsOf (ctx : Ctx) (a : Axis) : List ℚ :=
  (orderOf ctx a).map (fun k => axisQ (ptAt ctx k) a)

/-- The scan loop of `closest_point`: return `i - 1` at the first position
whose coordinate exceeds the line coordinate, `-1` if the scan finishes. -/
def closest_aux (c : ℚ) : List ℚ → Nat → Int
  | [], _ => -1
  | v :: rest, i => if c < v then (i : Int) - 1 else closest_aux c rest (i + 1)

/-- C `closest_point`, specialised to the coordinate list of the line's
axis: the index of the point closest to the left/bottom of the line, or
`-1` if the scan finds no coordinate exceeding the line's. -/
def closest_point (coords : List ℚ) (c : ℚ) : Int := closest_aux c coords 0

/-- `closest_point + 1` as a natural number: the size of the low group,
i.e. the loop bounds `i <= closest` / `j >= closest + 1` of
`links_to_break` and `finalize_lines`. -/
def natSplit (coords : List ℚ) (c : ℚ) : Nat := (closest_point coords c + 1).toNat

/-- The nested counting loops of `links_to_break`: active links with one
endpoint at a position below the split and one at or above it. -/
def countCross (conn : Nat → Nat → Bool) (ord : List Nat) (s n : Nat) : Nat :=
  ∑ p ∈ Finset.range n, ∑ q ∈ Finset.range n,
    if p < s ∧ s ≤ q ∧ conn (ord.getD p 0) (ord.getD q 0) = true then 1 else 0

/-- C `links_to_break`: 0 for a NULL line, otherwise the number of active
links crossing the line's split of its axis order. -/
def links_to_break (ctx : Ctx) (conn : Nat → Nat → Bool) : Option Line → Nat
  | none => 0
  | some ln =>
      countCross conn (orderOf ctx ln.axis)
        (natSplit (coordsOf ctx ln.axis) ln.coord) ctx.pts.length

/-- Clearing both directed entries of the pair `{a, b}` in the connection
matrix (`pt1->connections[pt2->id] = NULL; pt2->connections[pt1->id] = NULL`). -/
def clearConn (conn : Nat → Nat → Bool) (a b : Nat) : Nat → Nat → Bool :=
  fun u v => if (u = a ∧ v = b) ∨ (u = b ∧ v = a) then false else conn u v

/-- C `unlink_points`: if the directed entry `a -> b` is active, clear both
directions and decrement `num_edges` by 2 (unsigned); otherwise no-op. -/
def unlink_points (st : EngState) (a b : Nat) : EngState :=
  if st.conn a b = true then
    { st with
      conn := clearConn st.conn a b
      num_edges := u32sub2 st.num_edges }
  else st

/-- The index pairs visited by the nested unlink loops of
`finalize_lines`: low positions `i <= closest` crossed with high positions
`closest + 1 <= j < num_points`, mapped to point ids through the order
array. -/
def crossPairs (ord : List Nat) (s n : Nat) : List (Nat × Nat) :=
  ((List.range s) ×ˢ ((List.range n).filter (fun q => s ≤ q))).map
    (fun pr => (ord.getD pr.1 0, ord.getD pr.2 0))

/-- Folding `unlink_points` over a list of pairs. -/
def foldUnlink (prs : List (Nat × Nat)) (st : EngState) : EngState :=
  prs.foldl (fun t pr => unlink_points t pr.1 pr.2) st

/-- C `finalize_lines`: NULL is a no-op; otherwise append the line to
`final_lines` and unlink every pair crossing its split. -/
def finalize_lines (ctx : Ctx) (oln : Option Line) (st : EngState) : EngState :=
  match oln with
  | none => st
  | some ln =>
      let st1 := foldUnlink
        (crossPairs (orderOf ctx ln.axis)
          (natSplit (coordsOf ctx ln.axis) ln.coord) ctx.pts.length) st
      { st1 with final_lines := st.final_lines ++ [ln] }

/-- The score of pool slot `j` in the selection scan of `main`. -/
def selScore (ctx : Ctx) (st : EngState) (j : Nat) : Nat :=
  links_to_break ctx st.conn (st.lines.getD j none)

/-- The selection scan of `main`: start from slot 0, and let slot `j`
replace the current best only when its score is strictly greater
(`temp > num_link`).  Returns `(num_link, line_index)`. -/
def selectIdx (ctx : Ctx) (st : EngState) : Nat × Nat :=
  (List.range' 1 (st.lines.length - 1)).foldl
    (fun bi j => if bi.1 < selScore ctx st j then (selScore ctx st j, j) else bi)
    (selScore ctx st 0, 0)

/-- One iteration of the `while (num_edges > 0)` body of `main`: select,
finalize the selected slot, consume it (`lines[line_index] = NULL`). -/
def commit (ctx : Ctx) (st : EngState) : EngState :=
  let st1 := finalize_lines ctx (st.lines.getD (selectIdx ctx st).2 none) st
  { st1 with lines := st1.lines.set (selectIdx ctx st).2 none }

/-- The fuel-indexed main loop: iterate `commit` while `num_edges > 0`. -/
def run (ctx : Ctx) : Nat → EngState → EngState
  | 0, st => st
  | f + 1, st => if st.num_edges = 0 then st else run ctx f (commit ctx st)

/-- C `link_points` acting on the graph globals: the complete connection
matrix over `n` points (diagonal NULL) and the final value of the
`num_edges` counter after the nested increment loops, starting from the
entry value `e0` of the global. -/
def link_points (n e0 : Nat) : (Nat → Nat → Bool) × Nat :=
  ((fun a b => decide (a < n) && decide (b < n) && decide (a ≠ b)),
   (List.range n).foldl
     (fun e i => (List.range n).foldl (fun e2 j => if i = j then e2 else u32add1 e2) e)
     e0)

/-- Outcome of `link_points` together with its defensive check: on a
mismatch the C code prints and calls `exit(0)`, terminating the entire
process. -/
inductive LinkResult where
  | ok (g : (Nat → Nat → Bool) × Nat)
  | programExit

/-- C `link_points` including the check
`num_edges != num_points * (num_points - 1)` (unsigned arithmetic). -/
def link_points_checked (n e0 : Nat) : LinkResult :=
  let g := link_points n e0
  if g.2 = (n * u32sub1 n) % U32 then LinkResult.ok g else LinkResult.programExit

/-- The coordinate read by `pre_separate` at position `i` of an axis
order (out of range for the `num_points = 0` underflow, modelled by the
`getD` default). -/
def axisCoordAt (ctx : Ctx) (a : Axis) (i : Nat) : ℚ := (coordsOf ctx a).getD i 0

/-- C `pre_separate`: one vertical candidate per consecutive x-sorted pair
followed by one horizontal candidate per consecutive y-sorted pair, each
at the arithmetic midpoint.  The loop bound is the C expression
`num_points - 1` on `unsigned int`, which wraps to `2^32 - 1` when
`num_points = 0`. -/
def pre_separate (ctx : Ctx) : List Line :=
  (List.range (u32sub1 ctx.pts.length)).map
    (fun i => ⟨Axis.V, (axisCoordAt ctx Axis.V i + axisCoordAt ctx Axis.V (i + 1)) / 2⟩)
  ++ (List.range (u32sub1 ctx.pts.length)).map
    (fun i => ⟨Axis.H, (axisCoordAt ctx Axis.H i + axisCoordAt ctx Axis.H (i + 1)) / 2⟩)

/-- The y-comparison of `y_compare`, as a relation on point indices. -/
def yLe (pts : List Pt) (a b : Nat) : Prop :=
  (pts.getD a dfltPt).y ≤ (pts.getD b dfltPt).y

instance yLeDecidable (pts : List Pt) : DecidableRel (yLe pts) :=
  fun _ _ => inferInstanceAs (Decidable (_ ≤ _))

/-- The y-sorted order produced by `qsort(y_points, ...)`.  C `qsort` is
an unspecified (unstable) comparison sort; we model it by insertion sort,
which agrees with it on every input without ties on y and is some y-sorted
permutation otherwise, matching all the sortedness facts the algorithm
relies on. -/
def mkYord (pts : List Pt) : List Nat :=
  List.insertionSort (yLe pts) (List.range pts.length)

/-- The per-instance read-only context built by `read_file` + `qsort`. -/
def mkCtx (pts : List Pt) : Ctx := ⟨pts, mkYord pts⟩

/-- The engine state right after `link_points` (graph built, pool and
solution still empty), starting from counter value 0 as in `main`. -/
def graphInit (n : Nat) : EngState :=
  { conn := (link_points n 0).1
    num_edges := (link_points n 0).2
    lines := []
    final_lines := [] }

/-- The engine state at the top of the `while` loop of `main`:
graph built by `link_points`, pool filled by `pre_separate`, no committed
lines. -/
def initState (pts : List Pt) : EngState :=
  { conn := (link_points pts.length 0).1
    num_edges := (link_points pts.length 0).2
    lines := (pre_separate (mkCtx pts)).map some
    final_lines := [] }

/-- The state after `k` loop iterations of `main` on the given instance. -/
def reachState (pts : List Pt) (k : Nat) : EngState :=
  run (mkCtx pts) k (initState pts)

/-- The pool size `2 * (n - 1)`: enough fuel for the main loop. -/
def fuelFor (pts : List Pt) : Nat := 2 * (pts.length - 1)

/-- The instance-iteration loop of `main`, restricted to instances that
reach the engine: process instances in order; a `programExit` from the
graph check terminates the whole program, producing no further solutions.
After each completed instance `restore` resets the counters to 0. -/
def runProgram : List (List Pt) → Nat → List (List Line)
  | [], _ => []
  | pts :: rest, e0 =>
      match link_points_checked pts.length e0 with
      | LinkResult.programExit => []
      | LinkResult.ok g =>
          (run (mkCtx pts) (fuelFor pts)
            { conn := g.1, num_edges := g.2
              lines := (pre_separate (mkCtx pts)).map some, final_lines := [] }).final_lines
          :: runProgram rest 0

/-- Number of active directed connection entries of the matrix, the
quantity the `num_edges` counter is meant to track. -/
def edgeCount (conn : Nat → Nat → Bool) (n : Nat) : Nat :=
  ∑ u ∈ Finset.range n, ∑ v ∈ Finset.range n, if conn u v = true then 1 else 0

/-- Consistency of the graph globals: in-range irreflexive support,
symmetry, and a truthful counter. -/
def GraphInv (n : Nat) (st : EngState) : Prop :=
  (∀ a b, st.conn a b = true → a < n ∧ b < n ∧ a ≠ b)
  ∧ (∀ a b, st.conn a b = st.conn b a)
  ∧ st.num_edges = edgeCount st.conn n

/-- The line `ln` puts points `a` and `b` on opposite sides of its split
(in either orientation). -/
def SepCand (ctx : Ctx) (ln : Line) (a b : Nat) : Prop :=
  ∃ p q, p < natSplit (coordsOf ctx ln.axis) ln.coord
    ∧ natSplit (coordsOf ctx ln.axis) ln.coord ≤ q ∧ q < ctx.pts.length
    ∧ (((orderOf ctx ln.axis).getD p 0 = a ∧ (orderOf ctx ln.axis).getD q 0 = b)
       ∨ ((orderOf ctx ln.axis).getD p 0 = b ∧ (orderOf ctx ln.axis).getD q 0 = a))

/-- Every active link still has a live candidate able to break it. -/
def Coverage (ctx : Ctx) (st : EngState) : Prop :=
  ∀ a b, st.conn a b = true →
    ∃ k ln, st.lines.getD k none = some ln ∧ SepCand ctx ln a b

/-- The full loop invariant of the greedy separator. -/
def EngInv (pts : List Pt) (st : EngState) : Prop :=
  GraphInv pts.length st ∧ Coverage (mkCtx pts) st

/-- The engine preconditions: at most `MAX_POINTS` points, pre-sorted
ascending by x, pairwise distinct. -/
def Valid (pts : List Pt) : Prop :=
  pts.length ≤ 100
  ∧ List.Pairwise (fun p q => p.x ≤ q.x) pts
  ∧ List.Pairwise (fun p q => p ≠ q) pts

instance validDecidable (pts : List Pt) : Decidable (Valid pts) := by
  unfold Valid; infer_instance

/-- Number of live (non-consumed) pool slots. -/
def liveCount (st : EngState) : Nat := st.lines.countP (fun o => o.isSome)

/-- The two-point instance of spec Scenario C. -/
def pts2 : List Pt := [⟨0, 0⟩, ⟨2, 2⟩]

/-- A one-point instance. -/
def pts1 : List Pt := [⟨5, 5⟩]

/-- A state in which every pool slot is consumed while both directed links
of the two-point instance are still active: the pool-exhaustion situation
of spec section 7. -/
def stuckState : EngState :=
  { conn := fun a b => decide (a < 2) && decide (b < 2) && decide (a ≠ b)
    num_edges := 2
    lines := [none, none]
    final_lines := [] }

/-- Floor of the base-2 logarithm, with explicit fuel (64 steps cover any
value a 32-bit C integer can produce). -/
def floorLog2Fuel : Nat → Nat → Nat
  | 0, _ => 0
  | f + 1, n => if 2 ≤ n then floorLog2Fuel f (n / 2) + 1 else 0

/-- Floor of the base-2 logarithm of a natural number. -/
def floorLog2 (n : Nat) : Nat := floorLog2Fuel 64 n

/-- Round-to-nearest-even of a natural number to an IEEE binary32 value
(24-bit significand): magnitudes below `2^24` are exact; at magnitude
`2^k` with `k ≥ 24` the value is rounded to the nearest multiple of
`2^(k-23)`, ties to the even significand.  This is the value the C cast
`(float)x` produces for the in-range integers of this program. -/
def roundNat32 (n : Nat) : Nat :=
  if n < 2 ^ 24 then n
  else
    let k := floorLog2 n
    let ulp := 2 ^ (k - 23)
    let q := n / ulp
    let r := n % ulp
    if 2 * r < ulp then q * ulp
    else if ulp < 2 * r then (q + 1) * ulp
    else (if q % 2 = 0 then q else q + 1) * ulp

/-- The integer value of the C cast `(float)x` applied to an `int`
coordinate (always integral for integer inputs in range; overflow to
infinity cannot occur for 32-bit ints). -/
def floatOfInt (x : Int) : Int :=
  if x < 0 then -(roundNat32 x.natAbs : Int) else (roundNat32 x.natAbs : Int)

/-- The point set as the float program actually sees it: every coordinate
passed through the `(float)` cast that `closest_point` and `pre_separate`
apply.  When all post-cast values and the sums `pre_separate` forms stay
within `2^24`, every subsequent float operation of the program (one
addition, one halving, comparisons) is exact, so running the rational
engine on `castPts pts` is an exact model of the float execution on
`pts`. -/
def castPts (pts : List Pt) : List Pt :=
  pts.map (fun p => ⟨floatOfInt p.x, floatOfInt p.y⟩)

/-- Coordinate bound under which the program's float arithmetic is exact
and the rational model coincides with the float execution: with all
coordinate magnitudes at most `2^23`, every `(float)` cast is exact
(below `2^24`), every midpoint sum stays within `2^24` (so the float
addition and the halving are exact), every comparison in `closest_point`
compares exact values, and `y_compare`'s `int` subtraction `a->y - b->y`
stays within `int` range (no overflow, so `qsort` orders by true integer
order). -/
def FloatExact (pts : List Pt) : Prop :=
  ∀ p ∈ pts, p.x.natAbs ≤ 2 ^ 23 ∧ p.y.natAbs ≤ 2 ^ 23

instance floatExactDecidable (pts : List Pt) : Decidable (FloatExact pts) := by
  unfold FloatExact
  infer_instance

/-- A valid instance (distinct, x-sorted) outside the exact-float domain:
both x coordinates, `2^25` and `2^25 + 1`, cast to the same binary32
value, so the float program cannot separate the two points. -/
def ptsBig : List Pt := [⟨33554432, 0⟩, ⟨33554433, 0⟩]

/-- The instance the float program effectively runs on for `ptsBig`: both
points collapse to x = 33554432 after the casts. -/
def ptsCol : List Pt := [⟨33554432, 0⟩, ⟨33554432, 0⟩]

/-! ### Arithmetic helper lemmas for the unsigned counters -/

lemma U32_eq : U32 = 4294967296 := by norm_num [U32]

lemma u32sub1_eq {n : Nat} (h1 : 1 ≤ n) (h2 : n < U32) : u32sub1 n = n - 1 := by
  have h32 : U32 = 4294967296 := U32_eq
  unfold u32sub1
  have hn : n + (U32 - 1) = (n - 1) + 1 * U32 := by omega
  rw [hn, Nat.add_mul_mod_self_right, Nat.mod_eq_of_lt]
  omega

lemma u32sub1_zero : u32sub1 0 = U32 - 1 := by
  have h32 : U32 = 4294967296 := U32_eq
  unfold u32sub1
  rw [Nat.zero_add, Nat.mod_eq_of_lt]
  omega

lemma u32sub2_eq {e : Nat} (h1 : 2 ≤ e) (h2 : e < U32) : u32sub2 e = e - 2 := by
  have h32 : U32 = 4294967296 := U32_eq
  unfold u32sub2
  have hn : e + (U32 - 2) = (e - 2) + 1 * U32 := by omega
  rw [hn, Nat.add_mul_mod_self_right, Nat.mod_eq_of_lt]
  omega

lemma u32add1_lt (e : Nat) : u32add1 e < U32 := by
  have h32 : U32 = 4294967296 := U32_eq
  unfold u32add1
  exact Nat.mod_lt _ (by omega)

/-! ### The counter value produced by link_points -/

lemma foldl_skip_eq (i : Nat) :
    ∀ (l : List Nat) (e : Nat), e < U32 →
      l.foldl (fun e2 j => if i = j then e2 else u32add1 e2) e
        = (e + l.countP (fun j => decide (¬ i = j))) % U32 := by
  intro l
  induction l with
  | nil =>
      intro e he
      simp [Nat.mod_eq_of_lt he]
  | cons j l ih =>
      intro e he
      by_cases hij : i = j
      · have hcnt : (j :: l).countP (fun j => decide (¬ i = j))
            = l.countP (fun j => decide (¬ i = j)) := by
          simp [List.countP_cons, hij]
        simp only [List.foldl_cons, if_pos hij, hcnt]
        exact ih e he
      · have hcnt : (j :: l).countP (fun j => decide (¬ i = j))
            = l.countP (fun j => decide (¬ i = j)) + 1 := by
          simp [List.countP_cons, hij]
        simp only [List.foldl_cons, if_neg hij, hcnt]
        rw [ih (u32add1 e) (u32add1_lt e)]
        unfold u32add1
        rw [Nat.mod_add_mod]
        congr 1
        omega

lemma countP_ne_range {n i : Nat} (hi : i < n) :
    (List.range n).countP (fun j => decide (¬ i = j)) = n - 1 := by
  induction n with
  | zero => omega
  | succ n ih =>
      rw [List.range_succ, List.countP_append]
      by_cases hin : i = n
      · have hall : (List.range n).countP (fun j => decide (¬ i = j))
            = (List.range n).length := by
          rw [List.countP_eq_length]
          intro a ha
          have han : a < n := List.mem_range.mp ha
          have hne : ¬ i = a := by omega
          exact decide_eq_true hne
        have h2 : List.countP (fun j => decide (¬ i = j)) [n] = 0 := by
          simp [List.countP_cons, hin]
        rw [hall, h2, List.length_range]
        omega
      · have hi2 : i < n := by omega
        rw [ih hi2]
        have h1 : List.countP (fun j => decide (¬ i = j)) [n] = 1 := by
          simp [List.countP_cons, hin]
        rw [h1]
        omega

lemma inner_fold_eq {n i e : Nat} (hi : i < n) (he : e < U32) :
    (List.range n).foldl (fun e2 j => if i = j then e2 else u32add1 e2) e
      = (e + (n - 1)) % U32 := by
  rw [foldl_skip_eq i (List.range n) e he, countP_ne_range hi]

lemma outer_fold_eq {n : Nat} :
    ∀ (l : List Nat), (∀ x ∈ l, x < n) → ∀ (e : Nat), e < U32 →
      l.foldl (fun acc i =>
          (List.range n).foldl (fun e2 j => if i = j then e2 else u32add1 e2) acc) e
        = (e + l.length * (n - 1)) % U32 := by
  intro l
  induction l with
  | nil =>
      intro _ e he
      simp [Nat.mod_eq_of_lt he]
  | cons i l ih =>
      intro hmem e he
      have hi : i < n := hmem i (List.mem_cons_self i l)
      have hmem2 : ∀ x ∈ l, x < n := fun x hx => hmem x (List.mem_cons_of_mem i hx)
      simp only [List.foldl_cons]
      rw [inner_fold_eq hi he]
      have hlt : (e + (n - 1)) % U32 < U32 := by
        have h32 : U32 = 4294967296 := U32_eq
        exact Nat.mod_lt _ (by omega)
      rw [ih hmem2 _ hlt, Nat.mod_add_mod]
      congr 1
      rw [List.length_cons]
      ring_nf

lemma link_points_snd (n e0 : Nat) (he : e0 < U32) :
    (link_points n e0).2 = (e0 + n * (n - 1)) % U32 := by
  unfold link_points
  simp only
  rw [outer_fold_eq (List.range n) (fun x hx => List.mem_range.mp hx) e0 he,
    List.length_range]

lemma link_points_snd_small {n : Nat} (hn : n ≤ 100) :
    (link_points n 0).2 = n * (n - 1) := by
  have hb : n * (n - 1) < U32 := by
    have h32 : U32 = 4294967296 := U32_eq
    have h1 : n * (n - 1) ≤ 100 * 100 :=
      Nat.mul_le_mul hn (by omega)
    omega
  rw [link_points_snd n 0 (by have := U32_eq; omega), Nat.zero_add,
    Nat.mod_eq_of_lt hb]

lemma link_points_conn (n e0 a b : Nat) :
    (link_points n e0).1 a b = true ↔ (a < n ∧ b < n ∧ a ≠ b) := by
  unfold link_points
  simp [and_assoc]

/-! ### Characterisation of the closest_point scan -/

lemma closest_aux_spec (c : ℚ) :
    ∀ (l : List ℚ) (i : Nat),
      (closest_aux c l i = -1 ∧ ∀ j, j < l.length → l.getD j 0 ≤ c)
      ∨ (∃ t, t < l.length ∧ closest_aux c l i = (i : Int) + t - 1
          ∧ c < l.getD t 0 ∧ ∀ j, j < t → l.getD j 0 ≤ c) := by
  intro l
  induction l with
  | nil =>
      intro i
      left
      constructor
      · rfl
      · intro j hj
        simp at hj
  | cons v l ih =>
      intro i
      by_cases hv : c < v
      · right
        refine ⟨0, by simp, ?_, by simpa using hv, fun j hj => absurd hj (by omega)⟩
        simp [closest_aux, hv]
      · rcases ih (i + 1) with ⟨h1, h2⟩ | ⟨t, ht, heq, hgt, hlow⟩
        · left
          constructor
          · simpa [closest_aux, hv] using h1
          · intro j hj
            cases j with
            | zero => simpa using le_of_not_lt hv
            | succ j =>
                have : j < l.length := by simpa using hj
                simpa using h2 j this
        · right
          refine ⟨t + 1, by simpa using ht, ?_, by simpa using hgt, ?_⟩
          · have : closest_aux c (v :: l) i = closest_aux c l (i + 1) := by
              simp [closest_aux, hv]
            rw [this, heq]
            push_cast
            ring
          · intro j hj
            cases j with
            | zero => simpa using le_of_not_lt hv
            | succ j => simpa using hlow j (by omega)

lemma closest_point_cases (coords : List ℚ) (c : ℚ) :
    (closest_point coords c = -1 ∧ ∀ j, j < coords.length → coords.getD j 0 ≤ c)
    ∨ (∃ t, t < coords.length ∧ closest_point coords c = (t : Int) - 1
        ∧ c < coords.getD t 0 ∧ ∀ j, j < t → coords.getD j 0 ≤ c) := by
  have h := closest_aux_spec c coords 0
  rcases h with h | ⟨t, ht, heq, hgt, hlow⟩
  · exact Or.inl h
  · right
    exact ⟨t, ht, by simpa using heq, hgt, hlow⟩

lemma closest_point_eq_natSplit (coords : List ℚ) (c : ℚ) :
    closest_point coords c = (natSplit coords c : Int) - 1 := by
  rcases closest_point_cases coords c with ⟨h1, _⟩ | ⟨t, _, heq, _, _⟩
  · rw [natSplit, h1]
    rfl
  · rw [natSplit, heq]
    have : ((t : Int) - 1 + 1) = (t : Int) := by ring
    rw [this]
    simp

lemma natSplit_le (coords : List ℚ) (c : ℚ) : natSplit coords c ≤ coords.length := by
  rcases closest_point_cases coords c with ⟨h1, _⟩ | ⟨t, ht, heq, _, _⟩
  · rw [natSplit, h1]
    simp
  · rw [natSplit, heq]
    have : ((t : Int) - 1 + 1) = (t : Int) := by ring
    rw [this]
    simpa using Nat.le_of_lt ht

lemma natSplit_lowside {coords : List ℚ} {c : ℚ} {j : Nat}
    (hj : j < natSplit coords c) : coords.getD j 0 ≤ c := by
  rcases closest_point_cases coords c with ⟨h1, _⟩ | ⟨t, ht, heq, _, hlow⟩
  · rw [natSplit, h1] at hj
    simp at hj
  · rw [natSplit, heq] at hj
    have ht' : ((t : Int) - 1 + 1) = (t : Int) := by ring
    rw [ht'] at hj
    simp at hj
    exact hlow j hj

lemma natSplit_found {coords : List ℚ} {c : ℚ}
    (h : ∃ t, t < coords.length ∧ c < coords.getD t 0) :
    natSplit coords c < coords.length ∧ c < coords.getD (natSplit coords c) 0 := by
  rcases closest_point_cases coords c with ⟨_, hall⟩ | ⟨t, ht, heq, hgt, _⟩
  · rcases h with ⟨t, ht, hc⟩
    exact absurd (hall t ht) (not_le.mpr hc)
  · have hns : natSplit coords c = t := by
      rw [natSplit, heq]
      have : ((t : Int) - 1 + 1) = (t : Int) := by ring
      rw [this]
      simp
    rw [hns]
    exact ⟨ht, hgt⟩

lemma closest_point_none {coords : List ℚ} {c : ℚ}
    (h : ∀ j, j < coords.length → coords.getD j 0 ≤ c) :
    closest_point coords c = -1 := by
  rcases closest_point_cases coords c with ⟨h1, _⟩ | ⟨t, ht, _, hgt, _⟩
  · exact h1
  · exact absurd (h t ht) (not_le.mpr hgt)

/-! ### Counting active directed entries -/

lemma edgeCount_le (conn : Nat → Nat → Bool) (n : Nat) : edgeCount conn n ≤ n * n := by
  unfold edgeCount
  calc ∑ u ∈ Finset.range n, ∑ v ∈ Finset.range n, (if conn u v = true then 1 else 0)
      ≤ ∑ _u ∈ Finset.range n, ∑ _v ∈ Finset.range n, 1 := by
        refine Finset.sum_le_sum fun u _ => Finset.sum_le_sum fun v _ => ?_
        split <;> omega
    _ = n * n := by simp [mul_comm]

lemma edgeCount_pos_exists {conn : Nat → Nat → Bool} {n : Nat}
    (h : 0 < edgeCount conn n) : ∃ a b, a < n ∧ b < n ∧ conn a b = true := by
  by_contra hc
  push_neg at hc
  have hz : edgeCount conn n = 0 := by
    unfold edgeCount
    refine Finset.sum_eq_zero fun u hu => Finset.sum_eq_zero fun v hv => ?_
    have hun : u < n := Finset.mem_range.mp hu
    have hvn : v < n := Finset.mem_range.mp hv
    have : conn u v ≠ true := hc u v hun hvn
    simp [this]
  omega

lemma two_le_edgeCount {conn : Nat → Nat → Bool} {n a b : Nat}
    (ha : a < n) (hb : b < n) (hab : a ≠ b)
    (h1 : conn a b = true) (h2 : conn b a = true) : 2 ≤ edgeCount conn n := by
  have hrow : ∀ u v : Nat, v < n → conn u v = true →
      1 ≤ ∑ w ∈ Finset.range n, (if conn u w = true then 1 else 0) := by
    intro u v hv hc
    calc (1 : Nat) = (if conn u v = true then 1 else 0) := by rw [if_pos hc]
      _ ≤ ∑ w ∈ Finset.range n, (if conn u w = true then 1 else 0) := by
          have hle := Finset.single_le_sum
            (f := fun w => if conn u w = true then 1 else 0)
            (fun i _ => Nat.zero_le _) (Finset.mem_range.mpr hv)
          simp only [] at hle
          exact hle
  have hA : 1 ≤ ∑ w ∈ Finset.range n, (if conn a w = true then 1 else 0) := hrow a b hb h1
  have hB : 1 ≤ ∑ w ∈ Finset.range n, (if conn b w = true then 1 else 0) := hrow b a ha h2
  have hsplit := Finset.sum_erase_add (Finset.range n)
    (fun u => ∑ w ∈ Finset.range n, (if conn u w = true then 1 else 0))
    (Finset.mem_range.mpr ha)
  have hBin : (∑ w ∈ Finset.range n, (if conn b w = true then 1 else 0))
      ≤ ∑ u ∈ (Finset.range n).erase a,
          ∑ w ∈ Finset.range n, (if conn u w = true then 1 else 0) := by
    have hle := Finset.single_le_sum
      (f := fun u => ∑ w ∈ Finset.range n, (if conn u w = true then 1 else 0))
      (fun i _ => Nat.zero_le _)
      (Finset.mem_erase.mpr ⟨fun hba => hab hba.symm, Finset.mem_range.mpr hb⟩)
    simp only [] at hle
    exact hle
  simp only [] at hsplit
  unfold edgeCount
  omega

lemma sum_split_two {n a b : Nat} (g : Nat → Nat)
    (ha : a < n) (hb : b < n) (hab : a ≠ b) :
    ∑ u ∈ Finset.range n, g u
      = g a + g b + ∑ u ∈ ((Finset.range n).erase a).erase b, g u := by
  have h1 := Finset.sum_erase_add (Finset.range n) g (Finset.mem_range.mpr ha)
  have hbmem : b ∈ (Finset.range n).erase a :=
    Finset.mem_erase.mpr ⟨fun hba => hab hba.symm, Finset.mem_range.mpr hb⟩
  have h2 := Finset.sum_erase_add ((Finset.range n).erase a) g hbmem
  simp only [] at h1 h2
  omega

lemma clearConn_eval (conn : Nat → Nat → Bool) (a b u v : Nat) :
    clearConn conn a b u v
      = if (u = a ∧ v = b) ∨ (u = b ∧ v = a) then false else conn u v := rfl

lemma clearConn_comm (conn : Nat → Nat → Bool) (a b : Nat) :
    clearConn conn a b = clearConn conn b a := by
  funext u v
  simp only [clearConn]
  exact if_congr or_comm rfl rfl

lemma row_clear_other {conn : Nat → Nat → Bool} {n a b u : Nat}
    (hu1 : u ≠ a) (hu2 : u ≠ b) :
    (∑ v ∈ Finset.range n, (if clearConn conn a b u v = true then 1 else 0))
      = ∑ v ∈ Finset.range n, (if conn u v = true then 1 else 0) := by
  refine Finset.sum_congr rfl fun v _ => ?_
  have hcond : ¬ ((u = a ∧ v = b) ∨ (u = b ∧ v = a)) := by
    rintro (⟨h, _⟩ | ⟨h, _⟩)
    · exact hu1 h
    · exact hu2 h
  rw [clearConn_eval, if_neg hcond]

lemma row_clear_self (conn : Nat → Nat → Bool) {n a b : Nat}
    (hb : b < n) (hab : a ≠ b) (hcb : conn a b = true) :
    (∑ v ∈ Finset.range n, (if clearConn conn a b a v = true then 1 else 0)) + 1
      = ∑ v ∈ Finset.range n, (if conn a v = true then 1 else 0) := by
  have hsplitL := Finset.sum_erase_add (Finset.range n)
    (fun v => if clearConn conn a b a v = true then 1 else 0) (Finset.mem_range.mpr hb)
  have hsplitR := Finset.sum_erase_add (Finset.range n)
    (fun v => if conn a v = true then 1 else 0) (Finset.mem_range.mpr hb)
  have hcongr : ∑ v ∈ (Finset.range n).erase b,
      (if clearConn conn a b a v = true then 1 else 0)
      = ∑ v ∈ (Finset.range n).erase b, (if conn a v = true then 1 else 0) := by
    refine Finset.sum_congr rfl fun v hv => ?_
    have hvb : v ≠ b := (Finset.mem_erase.mp hv).1
    have hcond : ¬ ((a = a ∧ v = b) ∨ (a = b ∧ v = a)) := by
      rintro (⟨_, h⟩ | ⟨h, _⟩)
      · exact hvb h
      · exact hab h
    rw [clearConn_eval, if_neg hcond]
  have hatb : (if clearConn conn a b a b = true then 1 else 0) = 0 := by
    have hcond : ((a = a ∧ b = b) ∨ (a = b ∧ b = a)) := Or.inl ⟨rfl, rfl⟩
    rw [clearConn_eval, if_pos hcond]
    simp
  have hatbR : (if conn a b = true then 1 else 0) = 1 := by rw [if_pos hcb]
  simp only [] at hsplitL hsplitR
  omega

lemma edgeCount_clear {conn : Nat → Nat → Bool} {n a b : Nat}
    (ha : a < n) (hb : b < n) (hab : a ≠ b)
    (h1 : conn a b = true) (h2 : conn b a = true) :
    edgeCount (clearConn conn a b) n + 2 = edgeCount conn n := by
  unfold edgeCount
  rw [sum_split_two (fun u => ∑ v ∈ Finset.range n,
        (if clearConn conn a b u v = true then 1 else 0)) ha hb hab,
      sum_split_two (fun u => ∑ v ∈ Finset.range n,
        (if conn u v = true then 1 else 0)) ha hb hab]
  have hrest : ∑ u ∈ ((Finset.range n).erase a).erase b,
      (∑ v ∈ Finset.range n, (if clearConn conn a b u v = true then 1 else 0))
      = ∑ u ∈ ((Finset.range n).erase a).erase b,
        (∑ v ∈ Finset.range n, (if conn u v = true then 1 else 0)) := by
    refine Finset.sum_congr rfl fun u hu => ?_
    have hub : u ≠ b := (Finset.mem_erase.mp hu).1
    have hua : u ≠ a := (Finset.mem_erase.mp (Finset.mem_erase.mp hu).2).1
    exact row_clear_other hua hub
  have hrowa := row_clear_self conn hb hab h1
  have hrowb := row_clear_self conn (a := b) (b := a) ha (fun h => hab h.symm) h2
  rw [← clearConn_comm] at hrowb
  simp only [] at hrest hrowa hrowb
  omega

/-! ### Properties of unlink_points -/

lemma unlink_noop {st : EngState} {a b : Nat} (h : ¬ st.conn a b = true) :
    unlink_points st a b = st := by
  unfold unlink_points
  rw [if_neg h]

lemma unlink_active {st : EngState} {a b : Nat} (h : st.conn a b = true) :
    unlink_points st a b
      = { st with conn := clearConn st.conn a b, num_edges := u32sub2 st.num_edges } := by
  unfold unlink_points
  rw [if_pos h]

lemma unlink_lines (st : EngState) (a b : Nat) :
    (unlink_points st a b).lines = st.lines
    ∧ (unlink_points st a b).final_lines = st.final_lines := by
  unfold unlink_points
  split <;> exact ⟨rfl, rfl⟩

lemma unlink_mono {st : EngState} {a b u v : Nat}
    (h : (unlink_points st a b).conn u v = true) : st.conn u v = true := by
  unfold unlink_points at h
  split at h
  · simp only [clearConn] at h
    split at h
    · exact absurd h (by simp)
    · exact h
  · exact h

lemma unlink_sym {st : EngState} (hsym : ∀ u v, st.conn u v = st.conn v u)
    (a b : Nat) : ∀ u v, (unlink_points st a b).conn u v = (unlink_points st a b).conn v u := by
  intro u v
  unfold unlink_points
  split
  · simp only [clearConn]
    by_cases hc : (u = a ∧ v = b) ∨ (u = b ∧ v = a)
    · have hc2 : (v = a ∧ u = b) ∨ (v = b ∧ u = a) := by tauto
      rw [if_pos hc, if_pos hc2]
    · have hc2 : ¬ ((v = a ∧ u = b) ∨ (v = b ∧ u = a)) := by tauto
      rw [if_neg hc, if_neg hc2]
      exact hsym u v
  · exact hsym u v

lemma unlink_clears {st : EngState} (hsym : ∀ u v, st.conn u v = st.conn v u)
    (a b : Nat) :
    (unlink_points st a b).conn a b = false ∧ (unlink_points st a b).conn b a = false := by
  unfold unlink_points
  by_cases h : st.conn a b = true
  · rw [if_pos h]
    constructor
    · simp [clearConn]
    · simp [clearConn]
  · rw [if_neg h]
    have h2 : st.conn b a = st.conn a b := (hsym b a)
    constructor
    · simpa using h
    · rw [h2]
      simpa using h

lemma unlink_GraphInv {n : Nat} {st : EngState} (hn : n ≤ 100)
    (hg : GraphInv n st) (a b : Nat) : GraphInv n (unlink_points st a b) := by
  obtain ⟨hsupp, hsym, hcnt⟩ := hg
  by_cases h : st.conn a b = true
  · rw [unlink_active h]
    obtain ⟨ha, hb, hab⟩ := hsupp a b h
    have hba : st.conn b a = true := by rw [hsym b a]; exact h
    refine ⟨?_, ?_, ?_⟩
    · intro u v hc
      simp only [clearConn] at hc
      split at hc
      · exact absurd hc (by simp)
      · exact hsupp u v hc
    · intro u v
      simp only [clearConn]
      by_cases hc : (u = a ∧ v = b) ∨ (u = b ∧ v = a)
      · have hc2 : (v = a ∧ u = b) ∨ (v = b ∧ u = a) := by tauto
        rw [if_pos hc, if_pos hc2]
      · have hc2 : ¬ ((v = a ∧ u = b) ∨ (v = b ∧ u = a)) := by tauto
        rw [if_neg hc, if_neg hc2]
        exact hsym u v
    · have hclear := edgeCount_clear ha hb hab h hba
      have h2 : 2 ≤ st.num_edges := by
        rw [hcnt]
        exact two_le_edgeCount ha hb hab h hba
      have hlt : st.num_edges < U32 := by
        rw [hcnt]
        have h1 : edgeCount st.conn n ≤ n * n := edgeCount_le st.conn n
        have h2 : n * n ≤ 100 * 100 := Nat.mul_le_mul hn hn
        have h32 : U32 = 4294967296 := U32_eq
        omega
      simp only
      rw [u32sub2_eq h2 hlt, hcnt]
      omega
  · rw [unlink_noop h]
    exact ⟨hsupp, hsym, hcnt⟩

lemma unlink_edges_le {n : Nat} {st : EngState} (hn : n ≤ 100)
    (hg : GraphInv n st) (a b : Nat) :
    (unlink_points st a b).num_edges ≤ st.num_edges := by
  by_cases h : st.conn a b = true
  · have hg2 := unlink_GraphInv hn hg a b
    rw [unlink_active h] at hg2 ⊢
    obtain ⟨ha, hb, hab⟩ := hg.1 a b h
    have hba : st.conn b a = true := by rw [hg.2.1 b a]; exact h
    have h2 : 2 ≤ st.num_edges := by
      rw [hg.2.2]
      exact two_le_edgeCount ha hb hab h hba
    have hlt : st.num_edges < U32 := by
      rw [hg.2.2]
      have h1 : edgeCount st.conn n ≤ n * n := edgeCount_le st.conn n
      have h3 : n * n ≤ 100 * 100 := Nat.mul_le_mul hn hn
      have h32 : U32 = 4294967296 := U32_eq
      omega
    simp only
    rw [u32sub2_eq h2 hlt]
    omega
  · rw [unlink_noop h]

lemma unlink_edges_lt {n : Nat} {st : EngState} (hn : n ≤ 100)
    (hg : GraphInv n st) {a b : Nat} (h : st.conn a b = true) :
    (unlink_points st a b).num_edges < st.num_edges := by
  obtain ⟨ha, hb, hab⟩ := hg.1 a b h
  have hba : st.conn b a = true := by rw [hg.2.1 b a]; exact h
  have h2 : 2 ≤ st.num_edges := by
    rw [hg.2.2]
    exact two_le_edgeCount ha hb hab h hba
  have hlt : st.num_edges < U32 := by
    rw [hg.2.2]
    have h1 : edgeCount st.conn n ≤ n * n := edgeCount_le st.conn n
    have h3 : n * n ≤ 100 * 100 := Nat.mul_le_mul hn hn
    have h32 : U32 = 4294967296 := U32_eq
    omega
  rw [unlink_active h]
  simp only
  rw [u32sub2_eq h2 hlt]
  omega

/-! ### Properties of the unlink fold of finalize_lines -/

lemma foldUnlink_fields (prs : List (Nat × Nat)) :
    ∀ st : EngState, (foldUnlink prs st).lines = st.lines
      ∧ (foldUnlink prs st).final_lines = st.final_lines := by
  induction prs with
  | nil => intro st; exact ⟨rfl, rfl⟩
  | cons pr prs ih =>
      intro st
      have h1 := unlink_lines st pr.1 pr.2
      have h2 := ih (unlink_points st pr.1 pr.2)
      unfold foldUnlink at h2 ⊢
      simp only [List.foldl_cons]
      exact ⟨h2.1.trans h1.1, h2.2.trans h1.2⟩

lemma foldUnlink_mono (prs : List (Nat × Nat)) :
    ∀ (st : EngState) (u v : Nat),
      (foldUnlink prs st).conn u v = true → st.conn u v = true := by
  induction prs with
  | nil => intro st u v h; exact h
  | cons pr prs ih =>
      intro st u v h
      unfold foldUnlink at h
      simp only [List.foldl_cons] at h
      exact unlink_mono (ih (unlink_points st pr.1 pr.2) u v h)

lemma foldUnlink_GraphInv {n : Nat} (hn : n ≤ 100) (prs : List (Nat × Nat)) :
    ∀ st : EngState, GraphInv n st → GraphInv n (foldUnlink prs st) := by
  induction prs with
  | nil => intro st hg; exact hg
  | cons pr prs ih =>
      intro st hg
      unfold foldUnlink
      simp only [List.foldl_cons]
      exact ih (unlink_points st pr.1 pr.2) (unlink_GraphInv hn hg pr.1 pr.2)

lemma foldUnlink_edges_le {n : Nat} (hn : n ≤ 100) (prs : List (Nat × Nat)) :
    ∀ st : EngState, GraphInv n st → (foldUnlink prs st).num_edges ≤ st.num_edges := by
  induction prs with
  | nil => intro st _; exact le_refl _
  | cons pr prs ih =>
      intro st hg
      unfold foldUnlink
      simp only [List.foldl_cons]
      have h1 := unlink_edges_le hn hg pr.1 pr.2
      have h2 := ih (unlink_points st pr.1 pr.2) (unlink_GraphInv hn hg pr.1 pr.2)
      unfold foldUnlink at h2
      omega

lemma foldUnlink_edges_lt {n : Nat} (hn : n ≤ 100) (prs : List (Nat × Nat)) :
    ∀ st : EngState, GraphInv n st →
      ∀ pr ∈ prs, st.conn pr.1 pr.2 = true →
        (foldUnlink prs st).num_edges < st.num_edges := by
  induction prs with
  | nil =>
      intro st _ pr hpr _
      exact absurd hpr (List.not_mem_nil pr)
  | cons hd prs ih =>
      intro st hg pr hpr hact
      unfold foldUnlink
      simp only [List.foldl_cons]
      by_cases hhd : st.conn hd.1 hd.2 = true
      · have h1 := unlink_edges_lt hn hg hhd
        have h2 := foldUnlink_edges_le hn prs (unlink_points st hd.1 hd.2)
          (unlink_GraphInv hn hg hd.1 hd.2)
        unfold foldUnlink at h2
        omega
      · have hne : unlink_points st hd.1 hd.2 = st := unlink_noop hhd
        rw [hne]
        rcases List.mem_cons.mp hpr with heq | hmem
        · rw [heq] at hact
          exact absurd hact hhd
        · have := ih st hg pr hmem hact
          unfold foldUnlink at this
          exact this

lemma foldUnlink_clears (prs : List (Nat × Nat)) :
    ∀ st : EngState, (∀ u v, st.conn u v = st.conn v u) →
      ∀ pr ∈ prs, (foldUnlink prs st).conn pr.1 pr.2 = false
        ∧ (foldUnlink prs st).conn pr.2 pr.1 = false := by
  induction prs with
  | nil =>
      intro st _ pr hpr
      exact absurd hpr (List.not_mem_nil pr)
  | cons hd prs ih =>
      intro st hsym pr hpr
      unfold foldUnlink
      simp only [List.foldl_cons]
      have hsym1 := unlink_sym hsym hd.1 hd.2
      rcases List.mem_cons.mp hpr with heq | hmem
      · have hcl := unlink_clears hsym hd.1 hd.2
        have hmono := foldUnlink_mono prs (unlink_points st hd.1 hd.2)
        subst heq
        constructor
        · cases hcc : (foldUnlink prs (unlink_points st pr.1 pr.2)).conn pr.1 pr.2 with
          | false => unfold foldUnlink at hcc; exact hcc
          | true =>
              have := hmono pr.1 pr.2 hcc
              rw [hcl.1] at this
              exact absurd this (by simp)
        · cases hcc : (foldUnlink prs (unlink_points st pr.1 pr.2)).conn pr.2 pr.1 with
          | false => unfold foldUnlink at hcc; exact hcc
          | true =>
              have := hmono pr.2 pr.1 hcc
              rw [hcl.2] at this
              exact absurd this (by simp)
      · have := ih (unlink_points st hd.1 hd.2) hsym1 pr hmem
        unfold foldUnlink at this
        exact this

/-! ### Properties of countCross and crossPairs -/

lemma countCross_pos {conn : Nat → Nat → Bool} {ord : List Nat} {s n p q : Nat}
    (hp : p < s) (hq : s ≤ q) (hqn : q < n)
    (hc : conn (ord.getD p 0) (ord.getD q 0) = true) :
    1 ≤ countCross conn ord s n := by
  have hpn : p < n := lt_of_lt_of_le hp (le_trans hq (le_of_lt hqn))
  have hinner : 1 ≤ ∑ w ∈ Finset.range n,
      (if p < s ∧ s ≤ w ∧ conn (ord.getD p 0) (ord.getD w 0) = true then 1 else 0) := by
    calc (1 : Nat)
        = (if p < s ∧ s ≤ q ∧ conn (ord.getD p 0) (ord.getD q 0) = true then 1 else 0) := by
          rw [if_pos ⟨hp, hq, hc⟩]
      _ ≤ _ := by
          have hle := Finset.single_le_sum
            (f := fun w => if p < s ∧ s ≤ w ∧ conn (ord.getD p 0) (ord.getD w 0) = true
              then 1 else 0)
            (fun i _ => Nat.zero_le _) (Finset.mem_range.mpr hqn)
          simp only [] at hle
          exact hle
  calc (1 : Nat) ≤ _ := hinner
    _ ≤ countCross conn ord s n := by
        unfold countCross
        have hle := Finset.single_le_sum
          (f := fun p2 => ∑ q2 ∈ Finset.range n,
            (if p2 < s ∧ s ≤ q2 ∧ conn (ord.getD p2 0) (ord.getD q2 0) = true then 1 else 0))
          (fun i _ => Nat.zero_le _) (Finset.mem_range.mpr hpn)
        simp only [] at hle
        exact hle

lemma countCross_exists {conn : Nat → Nat → Bool} {ord : List Nat} {s n : Nat}
    (h : 0 < countCross conn ord s n) :
    ∃ p q, p < s ∧ s ≤ q ∧ q < n ∧ conn (ord.getD p 0) (ord.getD q 0) = true := by
  by_contra hc
  push_neg at hc
  have hz : countCross conn ord s n = 0 := by
    unfold countCross
    refine Finset.sum_eq_zero fun p hp => Finset.sum_eq_zero fun q hq => ?_
    have hqn : q < n := Finset.mem_range.mp hq
    by_cases hcond : p < s ∧ s ≤ q ∧ conn (ord.getD p 0) (ord.getD q 0) = true
    · exact absurd hcond.2.2 (hc p q hcond.1 hcond.2.1 hqn)
    · rw [if_neg hcond]
  omega

lemma mem_crossPairs {ord : List Nat} {s n p q : Nat}
    (hp : p < s) (hq : s ≤ q) (hqn : q < n) :
    (ord.getD p 0, ord.getD q 0) ∈ crossPairs ord s n := by
  unfold crossPairs
  refine List.mem_map.mpr ⟨(p, q), ?_, rfl⟩
  refine List.pair_mem_product.mpr ⟨List.mem_range.mpr hp, ?_⟩
  refine List.mem_filter.mpr ⟨List.mem_range.mpr hqn, by simpa using hq⟩

/-! ### Properties of finalize_lines -/

lemma finalize_none (ctx : Ctx) (st : EngState) : finalize_lines ctx none st = st := rfl

lemma finalize_some (ctx : Ctx) (ln : Line) (st : EngState) :
    finalize_lines ctx (some ln) st
      = { foldUnlink (crossPairs (orderOf ctx ln.axis)
            (natSplit (coordsOf ctx ln.axis) ln.coord) ctx.pts.length) st with
          final_lines := st.final_lines ++ [ln] } := rfl

lemma finalize_fields (ctx : Ctx) (oln : Option Line) (st : EngState) :
    (finalize_lines ctx oln st).lines = st.lines
    ∧ (finalize_lines ctx oln st).conn
        = (match oln with
           | none => st.conn
           | some ln => (foldUnlink (crossPairs (orderOf ctx ln.axis)
               (natSplit (coordsOf ctx ln.axis) ln.coord) ctx.pts.length) st).conn)
    ∧ (finalize_lines ctx oln st).num_edges
        = (match oln with
           | none => st.num_edges
           | some ln => (foldUnlink (crossPairs (orderOf ctx ln.axis)
               (natSplit (coordsOf ctx ln.axis) ln.coord) ctx.pts.length) st).num_edges) := by
  cases oln with
  | none => exact ⟨rfl, rfl, rfl⟩
  | some ln =>
      rw [finalize_some]
      exact ⟨(foldUnlink_fields _ st).1, rfl, rfl⟩

lemma finalize_GraphInv {n : Nat} (hn : n ≤ 100) (ctx : Ctx) (oln : Option Line)
    {st : EngState} (hg : GraphInv n st) : GraphInv n (finalize_lines ctx oln st) := by
  cases oln with
  | none => exact hg
  | some ln =>
      rw [finalize_some]
      have hf := foldUnlink_GraphInv hn (crossPairs (orderOf ctx ln.axis)
        (natSplit (coordsOf ctx ln.axis) ln.coord) ctx.pts.length) st hg
      exact ⟨hf.1, hf.2.1, hf.2.2⟩

lemma finalize_edges_le {n : Nat} (hn : n ≤ 100) (ctx : Ctx) (oln : Option Line)
    {st : EngState} (hg : GraphInv n st) :
    (finalize_lines ctx oln st).num_edges ≤ st.num_edges := by
  cases oln with
  | none => exact le_refl _
  | some ln =>
      rw [finalize_some]
      exact foldUnlink_edges_le hn _ st hg

/-! ### The first-argmax property of the selection scan -/

lemma select_fold_spec (score : Nat → Nat) :
    ∀ (k m : Nat) (bi : Nat × Nat),
      bi.2 < m → bi.1 = score bi.2 →
      (∀ j, j < m → score j ≤ bi.1) →
      (∀ j, j < bi.2 → score j < bi.1) →
      ∀ r, r = (List.range' m k).foldl
          (fun acc j => if acc.1 < score j then (score j, j) else acc) bi →
      r.2 < m + k ∧ r.1 = score r.2
        ∧ (∀ j, j < m + k → score j ≤ r.1)
        ∧ (∀ j, j < r.2 → score j < r.1) := by
  intro k
  induction k with
  | zero =>
      intro m bi h1 h2 h3 h4 r hr
      rw [List.range'] at hr
      simp only [List.foldl_nil] at hr
      subst hr
      exact ⟨by omega, h2, fun j hj => h3 j (by omega), h4⟩
  | succ k ih =>
      intro m bi h1 h2 h3 h4 r hr
      have hcons : List.range' m (k + 1) = m :: List.range' (m + 1) k := rfl
      rw [hcons] at hr
      simp only [List.foldl_cons] at hr
      by_cases hlt : bi.1 < score m
      · rw [if_pos hlt] at hr
        have hnew1 : (score m, m).2 < m + 1 := by simp
        have hnew2 : (score m, m).1 = score (score m, m).2 := rfl
        have hnew3 : ∀ j, j < m + 1 → score j ≤ (score m, m).1 := by
          intro j hj
          rcases Nat.lt_succ_iff_lt_or_eq.mp hj with hj2 | hj2
          · exact le_of_lt (lt_of_le_of_lt (h3 j hj2) hlt)
          · rw [hj2]
        have hnew4 : ∀ j, j < (score m, m).2 → score j < (score m, m).1 := by
          intro j hj
          exact lt_of_le_of_lt (h3 j hj) hlt
        have := ih (m + 1) (score m, m) hnew1 hnew2 hnew3 hnew4 r hr
        refine ⟨by omega, this.2.1, fun j hj => this.2.2.1 j (by omega), this.2.2.2⟩
      · rw [if_neg hlt] at hr
        have hnew3 : ∀ j, j < m + 1 → score j ≤ bi.1 := by
          intro j hj
          rcases Nat.lt_succ_iff_lt_or_eq.mp hj with hj2 | hj2
          · exact h3 j hj2
          · rw [hj2]; exact le_of_not_lt hlt
        have := ih (m + 1) bi (by omega) h2 hnew3 h4 r hr
        refine ⟨by omega, this.2.1, fun j hj => this.2.2.1 j (by omega), this.2.2.2⟩

lemma selScore_none {ctx : Ctx} {st : EngState} {j : Nat}
    (h : st.lines.getD j none = none) : selScore ctx st j = 0 := by
  rw [selScore, h]
  rfl

lemma selectIdx_spec (ctx : Ctx) (st : EngState) (hlen : 1 ≤ st.lines.length) :
    (selectIdx ctx st).2 < st.lines.length
    ∧ (selectIdx ctx st).1 = selScore ctx st (selectIdx ctx st).2
    ∧ (∀ j, j < st.lines.length → selScore ctx st j ≤ (selectIdx ctx st).1)
    ∧ (∀ j, j < (selectIdx ctx st).2 → selScore ctx st j < (selectIdx ctx st).1) := by
  have h0 : (selScore ctx st 0, 0).2 < 1 := by simp
  have h3 : ∀ j, j < 1 → selScore ctx st j ≤ (selScore ctx st 0, 0).1 := by
    intro j hj
    have : j = 0 := by omega
    rw [this]
  have h4 : ∀ j, j < (selScore ctx st 0, 0).2 → selScore ctx st j < (selScore ctx st 0, 0).1 := by
    intro j hj
    simp at hj
  have hspec := select_fold_spec (selScore ctx st) (st.lines.length - 1) 1
    (selScore ctx st 0, 0) h0 rfl h3 h4 (selectIdx ctx st) rfl
  have heq : 1 + (st.lines.length - 1) = st.lines.length := by omega
  rw [heq] at hspec
  exact hspec

lemma selectIdx_isSome {ctx : Ctx} {st : EngState}
    (hlen : 1 ≤ st.lines.length) (hpos : 1 ≤ (selectIdx ctx st).1) :
    st.lines.getD (selectIdx ctx st).2 none ≠ none := by
  intro hnone
  have hspec := selectIdx_spec ctx st hlen
  rw [hspec.2.1, selScore_none hnone] at hpos
  omega

/-! ### Elementary properties of the fuelled main loop -/

lemma run_zero (ctx : Ctx) (st : EngState) : run ctx 0 st = st := rfl

lemma run_succ (ctx : Ctx) (f : Nat) (st : EngState) :
    run ctx (f + 1) st = if st.num_edges = 0 then st else run ctx f (commit ctx st) := rfl

lemma run_zero_edges (ctx : Ctx) (f : Nat) {st : EngState}
    (h : st.num_edges = 0) : run ctx f st = st := by
  cases f with
  | zero => rfl
  | succ f =>
      rw [run_succ, if_pos h]

lemma run_add (ctx : Ctx) (f g : Nat) :
    ∀ st : EngState, run ctx (f + g) st = run ctx g (run ctx f st) := by
  induction f with
  | zero =>
      intro st
      rw [Nat.zero_add]
      rfl
  | succ f ih =>
      intro st
      have hsucc : f + 1 + g = (f + g) + 1 := by omega
      by_cases h : st.num_edges = 0
      · rw [run_zero_edges ctx (f + 1 + g) h, run_zero_edges ctx (f + 1) h,
          run_zero_edges ctx g h]
      · have h1 : run ctx (f + 1 + g) st = run ctx (f + g) (commit ctx st) := by
          rw [hsucc, run_succ, if_neg h]
        have h2 : run ctx (f + 1) st = run ctx f (commit ctx st) := by
          rw [run_succ, if_neg h]
        rw [h1, h2, ih (commit ctx st)]

lemma run_succ_end (ctx : Ctx) (f : Nat) (st : EngState) :
    run ctx (f + 1) st
      = if (run ctx f st).num_edges = 0 then run ctx f st else commit ctx (run ctx f st) := by
  rw [run_add ctx f 1 st, run_succ, run_zero]

/-! ### List access helpers -/

lemma pairwise_getD {α : Type} {R : α → α → Prop} {l : List α}
    (h : List.Pairwise R l) (d : α) {i j : Nat} (hij : i < j) (hj : j < l.length) :
    R (l.getD i d) (l.getD j d) := by
  have hi : i < l.length := lt_trans hij hj
  rw [List.getD_eq_getElem l d hi, List.getD_eq_getElem l d hj]
  have hg := List.pairwise_iff_get.mp h ⟨i, hi⟩ ⟨j, hj⟩ hij
  simpa using hg

lemma range_getD {n i : Nat} (h : i < n) : (List.range n).getD i 0 = i := by
  rw [List.getD_eq_getElem _ _ (by simpa using h)]
  simp

lemma getD_map_range {β : Type} (f : Nat → β) (d : β) {n k : Nat} (h : k < n) :
    ((List.range n).map f).getD k d = f k := by
  rw [List.getD_eq_getElem _ _ (by simpa using h)]
  simp

/-! ### Facts about the y-sorted order -/

lemma mkYord_perm (pts : List Pt) : List.Perm (mkYord pts) (List.range pts.length) :=
  List.perm_insertionSort (yLe pts) (List.range pts.length)

lemma mkYord_length (pts : List Pt) : (mkYord pts).length = pts.length := by
  rw [(mkYord_perm pts).length_eq, List.length_range]

lemma mkYord_mem {pts : List Pt} {a : Nat} : a ∈ mkYord pts ↔ a < pts.length := by
  rw [(mkYord_perm pts).mem_iff, List.mem_range]

lemma mkYord_sorted (pts : List Pt) : List.Pairwise (yLe pts) (mkYord pts) := by
  letI : IsTotal Nat (yLe pts) := ⟨fun a b => Int.le_total _ _⟩
  letI : IsTrans Nat (yLe pts) := ⟨fun _ _ _ hab hbc => le_trans hab hbc⟩
  exact List.sorted_insertionSort (yLe pts) (List.range pts.length)

/-! ### Facts about the axis orders and coordinate lists -/

lemma orderOf_length (pts : List Pt) (a : Axis) :
    (orderOf (mkCtx pts) a).length = pts.length := by
  cases a with
  | V => simp [orderOf, mkCtx]
  | H => simp [orderOf, mkCtx, mkYord_length]

lemma orderOf_lt {pts : List Pt} {a : Axis} {p : Nat} (hp : p < pts.length) :
    (orderOf (mkCtx pts) a).getD p 0 < pts.length := by
  cases a with
  | V =>
      have : orderOf (mkCtx pts) Axis.V = List.range pts.length := rfl
      rw [this, range_getD hp]
      exact hp
  | H =>
      have hord : orderOf (mkCtx pts) Axis.H = mkYord pts := rfl
      rw [hord]
      have hlen : p < (mkYord pts).length := by rw [mkYord_length]; exact hp
      rw [List.getD_eq_getElem _ _ hlen]
      exact mkYord_mem.mp (List.getElem_mem hlen)

lemma orderOf_surj {pts : List Pt} {a : Axis} {k : Nat} (hk : k < pts.length) :
    ∃ p, p < pts.length ∧ (orderOf (mkCtx pts) a).getD p 0 = k := by
  cases a with
  | V =>
      refine ⟨k, hk, ?_⟩
      have : orderOf (mkCtx pts) Axis.V = List.range pts.length := rfl
      rw [this, range_getD hk]
  | H =>
      have hord : orderOf (mkCtx pts) Axis.H = mkYord pts := rfl
      have hmem : k ∈ mkYord pts := mkYord_mem.mpr hk
      obtain ⟨i, hi, hval⟩ := List.getElem_of_mem hmem
      refine ⟨i, by rw [← mkYord_length pts]; exact hi, ?_⟩
      rw [hord, List.getD_eq_getElem _ _ hi]
      exact hval

lemma coordsOf_length (ctx : Ctx) (a : Axis) :
    (coordsOf ctx a).length = (orderOf ctx a).length := by
  simp [coordsOf]

lemma coordsOf_getD {ctx : Ctx} {a : Axis} {i : Nat} (h : i < (orderOf ctx a).length) :
    (coordsOf ctx a).getD i 0 = axisQ (ptAt ctx ((orderOf ctx a).getD i 0)) a := by
  unfold coordsOf
  rw [List.getD_eq_getElem _ _ (by simpa using h), List.getD_eq_getElem _ _ h]
  simp

lemma coordsOf_sorted_V {pts : List Pt}
    (hx : List.Pairwise (fun p q => p.x ≤ q.x) pts) :
    List.Pairwise (· ≤ ·) (coordsOf (mkCtx pts) Axis.V) := by
  unfold coordsOf
  have hord : orderOf (mkCtx pts) Axis.V = List.range pts.length := rfl
  rw [hord]
  have hR : List.Pairwise
      (fun i j : Nat => axisQ (ptAt (mkCtx pts) i) Axis.V ≤ axisQ (ptAt (mkCtx pts) j) Axis.V)
      (List.range pts.length) := by
    refine List.Pairwise.imp_of_mem ?_ (List.pairwise_lt_range pts.length)
    intro i j hi hj hij
    have hin : i < pts.length := List.mem_range.mp hi
    have hjn : j < pts.length := List.mem_range.mp hj
    have hle : (pts.getD i dfltPt).x ≤ (pts.getD j dfltPt).x :=
      pairwise_getD hx dfltPt hij hjn
    simpa [axisQ, ptAt, mkCtx] using Int.cast_le.mpr hle
  exact List.Pairwise.map _ (fun a b hab => hab) hR

lemma coordsOf_sorted_H (pts : List Pt) :
    List.Pairwise (· ≤ ·) (coordsOf (mkCtx pts) Axis.H) := by
  unfold coordsOf
  have hord : orderOf (mkCtx pts) Axis.H = mkYord pts := rfl
  rw [hord]
  refine List.Pairwise.map _ ?_ (mkYord_sorted pts)
  intro a b hab
  simpa [axisQ, ptAt, mkCtx] using Int.cast_le.mpr hab

/-! ### A strict-increase boundary exists between distinct coordinates -/

lemma exists_strict_boundary {coords : List ℚ} {p q : Nat} (hpq : p ≤ q)
    (hlt : coords.getD p 0 < coords.getD q 0) :
    ∃ k, p ≤ k ∧ k < q ∧ coords.getD k 0 < coords.getD (k + 1) 0 := by
  by_contra hc
  push_neg at hc
  have chain : ∀ d, p + d ≤ q → coords.getD (p + d) 0 ≤ coords.getD p 0 := by
    intro d
    induction d with
    | zero => intro _; exact le_refl _
    | succ d ih =>
        intro hd
        have h1 : coords.getD (p + d + 1) 0 ≤ coords.getD (p + d) 0 :=
          hc (p + d) (by omega) (by omega)
        have h2 : coords.getD (p + d) 0 ≤ coords.getD p 0 := ih (by omega)
        calc coords.getD (p + d + 1) 0 ≤ coords.getD (p + d) 0 := h1
          _ ≤ coords.getD p 0 := h2
  have hq : coords.getD q 0 ≤ coords.getD p 0 := by
    have := chain (q - p) (by omega)
    have heq : p + (q - p) = q := by omega
    rwa [heq] at this
  exact absurd hlt (not_lt.mpr hq)

/-- The split of the midpoint between two strictly increasing consecutive
coordinates of a sorted list falls exactly between them. -/
lemma natSplit_mid {coords : List ℚ} (hs : List.Pairwise (· ≤ ·) coords) {k : Nat}
    (hk : k + 1 < coords.length) (hlt : coords.getD k 0 < coords.getD (k + 1) 0) :
    natSplit coords ((coords.getD k 0 + coords.getD (k + 1) 0) / 2) = k + 1 := by
  set m := (coords.getD k 0 + coords.getD (k + 1) 0) / 2 with hm
  have hmid1 : coords.getD k 0 < m := by
    rw [hm]
    linarith
  have hmid2 : m < coords.getD (k + 1) 0 := by
    rw [hm]
    linarith
  have hfound := natSplit_found (c := m) ⟨k + 1, hk, hmid2⟩
  by_cases h1 : natSplit coords m ≤ k
  · exfalso
    have hle : coords.getD (natSplit coords m) 0 ≤ coords.getD k 0 := by
      rcases Nat.lt_or_ge (natSplit coords m) k with h2 | h2
      · exact pairwise_getD hs 0 h2 (by omega)
      · have heq : natSplit coords m = k := by omega
        rw [heq]
    have hcon : m < coords.getD k 0 := lt_of_lt_of_le hfound.2 hle
    linarith
  · by_cases h2 : k + 1 < natSplit coords m
    · exfalso
      have := natSplit_lowside h2
      exact absurd hmid2 (not_lt.mpr this)
    · omega

/-! ### The pool produced by pre_separate -/

/-- Default line used only as a `getD` fallback in proofs. -/
def dfltLine : Line := ⟨Axis.V, 0⟩

lemma getD_map_some {β : Type} (l : List β) (d : β) {k : Nat} (h : k < l.length) :
    (l.map some).getD k none = some (l.getD k d) := by
  rw [List.getD_eq_getElem _ _ (by simpa using h), List.getD_eq_getElem _ _ h]
  simp

lemma pre_separate_length {pts : List Pt} (hn1 : 1 ≤ pts.length) (hn : pts.length ≤ 100) :
    (pre_separate (mkCtx pts)).length = 2 * (pts.length - 1) := by
  have hmk : (mkCtx pts).pts.length = pts.length := rfl
  have hu : u32sub1 (mkCtx pts).pts.length = pts.length - 1 :=
    u32sub1_eq (by omega) (by have := U32_eq; omega)
  unfold pre_separate
  rw [hu, List.length_append, List.length_map, List.length_map, List.length_range]
  omega

lemma getD_append_right {α : Type} (l1 l2 : List α) (d : α) (k : Nat) :
    (l1 ++ l2).getD (l1.length + k) d = l2.getD k d := by
  induction l1 with
  | nil => simp
  | cons h t ih =>
      have heq : (h :: t).length + k = (t.length + k) + 1 := by
        rw [List.length_cons]
        omega
      rw [List.cons_append, heq, List.getD_cons_succ, ih]

lemma pre_separate_getD_V {pts : List Pt} (hn : pts.length ≤ 100) {k : Nat}
    (hk : k < pts.length - 1) :
    (pre_separate (mkCtx pts)).getD k dfltLine
      = ⟨Axis.V, (axisCoordAt (mkCtx pts) Axis.V k
          + axisCoordAt (mkCtx pts) Axis.V (k + 1)) / 2⟩ := by
  have hmk : (mkCtx pts).pts.length = pts.length := rfl
  have hu : u32sub1 (mkCtx pts).pts.length = pts.length - 1 :=
    u32sub1_eq (by omega) (by have := U32_eq; omega)
  unfold pre_separate
  rw [hu]
  rw [List.getD_append _ _ _ _ (by rw [List.length_map, List.length_range]; exact hk)]
  exact getD_map_range _ _ hk

lemma pre_separate_getD_H {pts : List Pt} (hn : pts.length ≤ 100) {k : Nat}
    (hk : k < pts.length - 1) :
    (pre_separate (mkCtx pts)).getD ((pts.length - 1) + k) dfltLine
      = ⟨Axis.H, (axisCoordAt (mkCtx pts) Axis.H k
          + axisCoordAt (mkCtx pts) Axis.H (k + 1)) / 2⟩ := by
  have hmk : (mkCtx pts).pts.length = pts.length := rfl
  have hu : u32sub1 (mkCtx pts).pts.length = pts.length - 1 :=
    u32sub1_eq (by omega) (by have := U32_eq; omega)
  unfold pre_separate
  rw [hu]
  set l1 := (List.range (pts.length - 1)).map
      (fun i => (⟨Axis.V, (axisCoordAt (mkCtx pts) Axis.V i
        + axisCoordAt (mkCtx pts) Axis.V (i + 1)) / 2⟩ : Line)) with hl1
  set l2 := (List.range (pts.length - 1)).map
      (fun i => (⟨Axis.H, (axisCoordAt (mkCtx pts) Axis.H i
        + axisCoordAt (mkCtx pts) Axis.H (i + 1)) / 2⟩ : Line)) with hl2
  have hlen1 : l1.length = pts.length - 1 := by
    rw [hl1, List.length_map, List.length_range]
  rw [← hlen1, getD_append_right l1 l2, hl2]
  exact getD_map_range _ _ hk

lemma initState_lines (pts : List Pt) :
    (initState pts).lines = (pre_separate (mkCtx pts)).map some := by
  simp only [initState]

lemma initState_lines_getD {pts : List Pt} (hn : pts.length ≤ 100) {k : Nat}
    (hk : k < 2 * (pts.length - 1)) (hn1 : 1 ≤ pts.length) :
    (initState pts).lines.getD k none
      = some ((pre_separate (mkCtx pts)).getD k dfltLine) := by
  have hlen := pre_separate_length hn1 hn
  rw [initState_lines]
  exact getD_map_some _ dfltLine (by omega)

/-! ### The initial state -/

lemma initState_conn (pts : List Pt) :
    (initState pts).conn = (link_points pts.length 0).1 := by
  simp only [initState]

lemma initState_edges (pts : List Pt) :
    (initState pts).num_edges = (link_points pts.length 0).2 := by
  simp only [initState]

lemma initState_final (pts : List Pt) : (initState pts).final_lines = [] := by
  simp only [initState]

lemma link_points_sym (n e0 : Nat) :
    ∀ a b, (link_points n e0).1 a b = (link_points n e0).1 b a := by
  intro a b
  by_cases h : (link_points n e0).1 a b = true
  · obtain ⟨ha, hb, hab⟩ := (link_points_conn n e0 a b).mp h
    have h2 : (link_points n e0).1 b a = true :=
      (link_points_conn n e0 b a).mpr ⟨hb, ha, fun hba => hab hba.symm⟩
    rw [h, h2]
  · have h2 : ¬ (link_points n e0).1 b a = true := by
      intro hba
      obtain ⟨hb, ha, hba2⟩ := (link_points_conn n e0 b a).mp hba
      exact h ((link_points_conn n e0 a b).mpr ⟨ha, hb, fun hab => hba2 hab.symm⟩)
    rw [Bool.not_eq_true] at h h2
    rw [h, h2]

lemma edgeCount_complete (n : Nat) : edgeCount (link_points n 0).1 n = n * (n - 1) := by
  unfold edgeCount
  have hrow : ∀ u ∈ Finset.range n,
      (∑ v ∈ Finset.range n, (if (link_points n 0).1 u v = true then 1 else 0)) = n - 1 := by
    intro u hu
    have hun : u < n := Finset.mem_range.mp hu
    have hsplit := Finset.sum_erase_add (Finset.range n)
      (fun v => if (link_points n 0).1 u v = true then 1 else 0) hu
    simp only [] at hsplit
    have hdiag : (if (link_points n 0).1 u u = true then 1 else 0) = 0 := by
      have : ¬ (link_points n 0).1 u u = true := by
        intro h
        exact ((link_points_conn n 0 u u).mp h).2.2 rfl
      simp [this]
    have hrest : (∑ v ∈ (Finset.range n).erase u,
        (if (link_points n 0).1 u v = true then 1 else 0)) = n - 1 := by
      have hall : ∀ v ∈ (Finset.range n).erase u,
          (if (link_points n 0).1 u v = true then 1 else 0) = 1 := by
        intro v hv
        have hvu : v ≠ u := (Finset.mem_erase.mp hv).1
        have hvn : v < n := Finset.mem_range.mp (Finset.mem_erase.mp hv).2
        have : (link_points n 0).1 u v = true :=
          (link_points_conn n 0 u v).mpr ⟨hun, hvn, fun huv => hvu huv.symm⟩
        simp [this]
      rw [Finset.sum_congr rfl hall]
      rw [Finset.sum_const, Finset.card_erase_of_mem hu, Finset.card_range]
      simp
    omega
  rw [Finset.sum_congr rfl hrow, Finset.sum_const, Finset.card_range]
  simp [Nat.mul_comm]

lemma initState_GraphInv {pts : List Pt} (hn : pts.length ≤ 100) :
    GraphInv pts.length (initState pts) := by
  refine ⟨?_, ?_, ?_⟩
  · intro a b h
    rw [initState_conn] at h
    exact (link_points_conn _ _ _ _).mp h
  · intro a b
    rw [initState_conn]
    exact link_points_sym _ _ a b
  · rw [initState_conn, initState_edges, link_points_snd_small hn, edgeCount_complete]

/-! ### Initial coverage: every link has a live separating candidate -/

lemma valid_distinct {pts : List Pt} (hv : Valid pts) {a b : Nat}
    (ha : a < pts.length) (hb : b < pts.length) (hab : a ≠ b) :
    pts.getD a dfltPt ≠ pts.getD b dfltPt := by
  rcases Nat.lt_or_ge a b with h | h
  · exact pairwise_getD hv.2.2 dfltPt h hb
  · have h2 : b < a := by omega
    exact (pairwise_getD hv.2.2 dfltPt h2 ha).symm

lemma pt_coord_diff {p q : Pt} (h : p ≠ q) : p.x ≠ q.x ∨ p.y ≠ q.y := by
  by_contra hc
  push_neg at hc
  obtain ⟨hx, hy⟩ := hc
  apply h
  cases p
  cases q
  simp_all

lemma coverage_axis {pts : List Pt} (hv : Valid pts) (ax : Axis) {u v : Nat}
    (hu : u < pts.length) (hvp : v < pts.length)
    (hlt : axisQ (ptAt (mkCtx pts) u) ax < axisQ (ptAt (mkCtx pts) v) ax) :
    ∃ k ln, (initState pts).lines.getD k none = some ln ∧ ln.axis = ax
      ∧ ∃ p q, p < natSplit (coordsOf (mkCtx pts) ax) ln.coord
        ∧ natSplit (coordsOf (mkCtx pts) ax) ln.coord ≤ q ∧ q < pts.length
        ∧ (orderOf (mkCtx pts) ax).getD p 0 = u
        ∧ (orderOf (mkCtx pts) ax).getD q 0 = v := by
  have hsort : List.Pairwise (· ≤ ·) (coordsOf (mkCtx pts) ax) := by
    cases ax with
    | V => exact coordsOf_sorted_V hv.2.1
    | H => exact coordsOf_sorted_H pts
  have hclen : (coordsOf (mkCtx pts) ax).length = pts.length :=
    (coordsOf_length _ _).trans (orderOf_length pts ax)
  obtain ⟨p, hp, hpu⟩ := orderOf_surj (a := ax) hu
  obtain ⟨q, hq, hqv⟩ := orderOf_surj (a := ax) hvp
  have hcp : (coordsOf (mkCtx pts) ax).getD p 0 = axisQ (ptAt (mkCtx pts) u) ax := by
    rw [coordsOf_getD (by rw [orderOf_length]; exact hp), hpu]
  have hcq : (coordsOf (mkCtx pts) ax).getD q 0 = axisQ (ptAt (mkCtx pts) v) ax := by
    rw [coordsOf_getD (by rw [orderOf_length]; exact hq), hqv]
  have hplt : (coordsOf (mkCtx pts) ax).getD p 0 < (coordsOf (mkCtx pts) ax).getD q 0 := by
    rw [hcp, hcq]
    exact hlt
  have hpq : p < q := by
    by_contra hcon
    push_neg at hcon
    rcases Nat.eq_or_lt_of_le hcon with heq | hlt2
    · rw [heq] at hplt
      exact lt_irrefl _ hplt
    · have := pairwise_getD hsort 0 hlt2 (by rw [hclen]; exact hp)
      exact absurd hplt (not_lt.mpr this)
  obtain ⟨k, hk1, hk2, hk3⟩ := exists_strict_boundary (le_of_lt hpq) hplt
  have hkb : k + 1 < (coordsOf (mkCtx pts) ax).length := by
    rw [hclen]
    omega
  have hns := natSplit_mid hsort hkb hk3
  have hn1 : 1 ≤ pts.length := by omega
  have hn : pts.length ≤ 100 := hv.1
  have hkn : k < pts.length - 1 := by omega
  cases ax with
  | V =>
      refine ⟨k, ⟨Axis.V, (axisCoordAt (mkCtx pts) Axis.V k
          + axisCoordAt (mkCtx pts) Axis.V (k + 1)) / 2⟩, ?_, rfl, p, q, ?_, ?_, hq, hpu, hqv⟩
      · rw [initState_lines_getD hn (by omega) hn1, pre_separate_getD_V hn hkn]
      · have hcoord : (axisCoordAt (mkCtx pts) Axis.V k
            + axisCoordAt (mkCtx pts) Axis.V (k + 1)) / 2
            = ((coordsOf (mkCtx pts) Axis.V).getD k 0
              + (coordsOf (mkCtx pts) Axis.V).getD (k + 1) 0) / 2 := rfl
        rw [hcoord, hns]
        omega
      · have hcoord : (axisCoordAt (mkCtx pts) Axis.V k
            + axisCoordAt (mkCtx pts) Axis.V (k + 1)) / 2
            = ((coordsOf (mkCtx pts) Axis.V).getD k 0
              + (coordsOf (mkCtx pts) Axis.V).getD (k + 1) 0) / 2 := rfl
        rw [hcoord, hns]
        omega
  | H =>
      refine ⟨(pts.length - 1) + k, ⟨Axis.H, (axisCoordAt (mkCtx pts) Axis.H k
          + axisCoordAt (mkCtx pts) Axis.H (k + 1)) / 2⟩, ?_, rfl, p, q, ?_, ?_, hq, hpu, hqv⟩
      · rw [initState_lines_getD hn (by omega) hn1, pre_separate_getD_H hn hkn]
      · have hcoord : (axisCoordAt (mkCtx pts) Axis.H k
            + axisCoordAt (mkCtx pts) Axis.H (k + 1)) / 2
            = ((coordsOf (mkCtx pts) Axis.H).getD k 0
              + (coordsOf (mkCtx pts) Axis.H).getD (k + 1) 0) / 2 := rfl
        rw [hcoord, hns]
        omega
      · have hcoord : (axisCoordAt (mkCtx pts) Axis.H k
            + axisCoordAt (mkCtx pts) Axis.H (k + 1)) / 2
            = ((coordsOf (mkCtx pts) Axis.H).getD k 0
              + (coordsOf (mkCtx pts) Axis.H).getD (k + 1) 0) / 2 := rfl
        rw [hcoord, hns]
        omega

lemma initState_coverage {pts : List Pt} (hv : Valid pts) :
    Coverage (mkCtx pts) (initState pts) := by
  intro a b hab
  rw [initState_conn] at hab
  obtain ⟨ha, hb, hne⟩ := (link_points_conn _ _ _ _).mp hab
  have hpts : ptAt (mkCtx pts) a ≠ ptAt (mkCtx pts) b := valid_distinct hv ha hb hne
  have Hbuild : ∀ (ax : Axis),
      axisQ (ptAt (mkCtx pts) a) ax ≠ axisQ (ptAt (mkCtx pts) b) ax →
      ∃ k ln, (initState pts).lines.getD k none = some ln ∧ SepCand (mkCtx pts) ln a b := by
    intro ax hne2
    rcases lt_or_gt_of_ne hne2 with hlt | hgt
    · obtain ⟨k, ln, hl, hax, p, q, h1, h2, h3, h4, h5⟩ := coverage_axis hv ax ha hb hlt
      refine ⟨k, ln, hl, p, q, ?_, ?_, h3, Or.inl ⟨?_, ?_⟩⟩
      · rw [hax]; exact h1
      · rw [hax]; exact h2
      · rw [hax]; exact h4
      · rw [hax]; exact h5
    · obtain ⟨k, ln, hl, hax, p, q, h1, h2, h3, h4, h5⟩ := coverage_axis hv ax hb ha hgt
      refine ⟨k, ln, hl, p, q, ?_, ?_, h3, Or.inr ⟨?_, ?_⟩⟩
      · rw [hax]; exact h1
      · rw [hax]; exact h2
      · rw [hax]; exact h4
      · rw [hax]; exact h5
  rcases pt_coord_diff hpts with hx | hy
  · exact Hbuild Axis.V (by
      simp only [axisQ]
      exact fun h => hx (by exact_mod_cast h))
  · exact Hbuild Axis.H (by
      simp only [axisQ]
      exact fun h => hy (by exact_mod_cast h))

/-! ### Helpers for consuming a pool slot -/

lemma getD_set_ne {α : Type} (l : List α) (i k : Nat) (x d : α) (hik : i ≠ k) :
    (l.set i x).getD k d = l.getD k d := by
  rcases Nat.lt_or_ge k l.length with hk | hk
  · rw [List.getD_eq_getElem _ _ (by simpa using hk), List.getD_eq_getElem _ _ hk]
    simp [List.getElem_set, hik]
  · rw [List.getD_eq_default _ _ (by simpa using hk), List.getD_eq_default _ _ hk]

lemma liveCount_pos {st : EngState} {k : Nat} {ln : Line}
    (h : st.lines.getD k none = some ln) : 1 ≤ liveCount st := by
  have hk : k < st.lines.length := by
    by_contra hcon
    push_neg at hcon
    rw [List.getD_eq_default _ _ hcon] at h
    simp at h
  have hmem : st.lines.getD k none ∈ st.lines := by
    rw [List.getD_eq_getElem _ _ hk]
    exact List.getElem_mem hk
  unfold liveCount
  refine List.countP_pos_iff.mpr ⟨st.lines.getD k none, hmem, ?_⟩
  rw [h]
  rfl

lemma liveCount_set {l : List (Option Line)} {k : Nat} {ln : Line}
    (hk : k < l.length) (h : l.getD k none = some ln) :
    (l.set k none).countP (fun o => o.isSome) + 1 = l.countP (fun o => o.isSome) := by
  induction l generalizing k with
  | nil => simp at hk
  | cons hd tl ih =>
      cases k with
      | zero =>
          have hhd : hd = some ln := by simpa using h
          rw [hhd]
          simp [List.countP_cons]
      | succ k =>
          have hk2 : k < tl.length := by simpa using hk
          have h2 : tl.getD k none = some ln := by simpa using h
          have := ih hk2 h2
          simp only [List.set_cons_succ, List.countP_cons]
          omega

lemma GraphInv_set_lines {n : Nat} {st : EngState} (l : List (Option Line))
    (h : GraphInv n st) : GraphInv n { st with lines := l } := h

/-! ### The fields of commit -/

lemma commit_conn (ctx : Ctx) (st : EngState) :
    (commit ctx st).conn
      = (finalize_lines ctx (st.lines.getD (selectIdx ctx st).2 none) st).conn := by
  simp only [commit]

lemma commit_edges (ctx : Ctx) (st : EngState) :
    (commit ctx st).num_edges
      = (finalize_lines ctx (st.lines.getD (selectIdx ctx st).2 none) st).num_edges := by
  simp only [commit]

lemma commit_final (ctx : Ctx) (st : EngState) :
    (commit ctx st).final_lines
      = (finalize_lines ctx (st.lines.getD (selectIdx ctx st).2 none) st).final_lines := by
  simp only [commit]

lemma commit_lines (ctx : Ctx) (st : EngState) :
    (commit ctx st).lines
      = (finalize_lines ctx (st.lines.getD (selectIdx ctx st).2 none) st).lines.set
          (selectIdx ctx st).2 none := by
  simp only [commit]

/-! ### A live separating candidate scores at least one -/

lemma sepcand_score {pts : List Pt} {st : EngState} {ln : Line} {a b : Nat}
    (hsym : ∀ u v, st.conn u v = st.conn v u)
    (hc : st.conn a b = true) (hsep : SepCand (mkCtx pts) ln a b) :
    1 ≤ links_to_break (mkCtx pts) st.conn (some ln) := by
  obtain ⟨p, q, h1, h2, h3, hor⟩ := hsep
  have hltb : links_to_break (mkCtx pts) st.conn (some ln)
      = countCross st.conn (orderOf (mkCtx pts) ln.axis)
          (natSplit (coordsOf (mkCtx pts) ln.axis) ln.coord) (mkCtx pts).pts.length := rfl
  rw [hltb]
  rcases hor with ⟨hpa, hqb⟩ | ⟨hpb, hqa⟩
  · refine countCross_pos h1 h2 h3 ?_
    rw [hpa, hqb]
    exact hc
  · refine countCross_pos h1 h2 h3 ?_
    rw [hpb, hqa, hsym b a]
    exact hc

/-! ### The main progress lemma: a committing iteration preserves the
invariant, strictly decreases the link count, and consumes one live slot -/

lemma commit_progress {pts : List Pt} (hv : Valid pts) {st : EngState}
    (hI : EngInv pts st) (hpos : 0 < st.num_edges) :
    EngInv pts (commit (mkCtx pts) st)
    ∧ (commit (mkCtx pts) st).num_edges < st.num_edges
    ∧ liveCount (commit (mkCtx pts) st) + 1 = liveCount st
    ∧ 1 ≤ (selectIdx (mkCtx pts) st).1
    ∧ (selectIdx (mkCtx pts) st).2 < st.lines.length
    ∧ st.lines.getD (selectIdx (mkCtx pts) st).2 none ≠ none := by
  obtain ⟨hg, hcov⟩ := hI
  have hn : pts.length ≤ 100 := hv.1
  have hEc : 0 < edgeCount st.conn pts.length := by
    rw [← hg.2.2]
    exact hpos
  obtain ⟨a, b, _, _, hab⟩ := edgeCount_pos_exists hEc
  obtain ⟨k0, ln0, hl0, hsep0⟩ := hcov a b hab
  have hscore0 : 1 ≤ selScore (mkCtx pts) st k0 := by
    unfold selScore
    rw [hl0]
    exact sepcand_score hg.2.1 hab hsep0
  have hk0 : k0 < st.lines.length := by
    by_contra hcon
    push_neg at hcon
    rw [List.getD_eq_default _ _ hcon] at hl0
    simp at hl0
  have hlen : 1 ≤ st.lines.length := by omega
  have hsel := selectIdx_spec (mkCtx pts) st hlen
  have hs1 : 1 ≤ (selectIdx (mkCtx pts) st).1 :=
    le_trans hscore0 (hsel.2.2.1 k0 hk0)
  have hsome := selectIdx_isSome hlen hs1
  obtain ⟨ln, hln⟩ : ∃ ln, st.lines.getD (selectIdx (mkCtx pts) st).2 none = some ln := by
    cases hopt : st.lines.getD (selectIdx (mkCtx pts) st).2 none with
    | none => exact absurd hopt hsome
    | some lnx => exact ⟨lnx, rfl⟩
  have hsc_ln : 1 ≤ links_to_break (mkCtx pts) st.conn (some ln) := by
    have h1 := hsel.2.1
    unfold selScore at h1
    rw [hln] at h1
    rw [← h1]
    exact hs1
  set prs := crossPairs (orderOf (mkCtx pts) ln.axis)
      (natSplit (coordsOf (mkCtx pts) ln.axis) ln.coord) (mkCtx pts).pts.length with hprs
  have hfin : finalize_lines (mkCtx pts) (st.lines.getD (selectIdx (mkCtx pts) st).2 none) st
      = { foldUnlink prs st with final_lines := st.final_lines ++ [ln] } := by
    rw [hln, finalize_some]
  have hcc : (commit (mkCtx pts) st).conn = (foldUnlink prs st).conn := by
    rw [commit_conn, hfin]
  have hce : (commit (mkCtx pts) st).num_edges = (foldUnlink prs st).num_edges := by
    rw [commit_edges, hfin]
  have hcl : (commit (mkCtx pts) st).lines
      = st.lines.set (selectIdx (mkCtx pts) st).2 none := by
    rw [commit_lines, hfin]
    have hfl : ({ foldUnlink prs st with
        final_lines := st.final_lines ++ [ln] } : EngState).lines
        = (foldUnlink prs st).lines := rfl
    rw [hfl, (foldUnlink_fields prs st).1]
  have hsc_count : 0 < countCross st.conn (orderOf (mkCtx pts) ln.axis)
      (natSplit (coordsOf (mkCtx pts) ln.axis) ln.coord) (mkCtx pts).pts.length := by
    have hltb : links_to_break (mkCtx pts) st.conn (some ln)
        = countCross st.conn (orderOf (mkCtx pts) ln.axis)
            (natSplit (coordsOf (mkCtx pts) ln.axis) ln.coord) (mkCtx pts).pts.length := rfl
    rw [hltb] at hsc_ln
    omega
  obtain ⟨p, q, hp, hq, hqn, hcpq⟩ := countCross_exists hsc_count
  have hm : ((orderOf (mkCtx pts) ln.axis).getD p 0,
      (orderOf (mkCtx pts) ln.axis).getD q 0) ∈ prs := by
    rw [hprs]
    exact mem_crossPairs hp hq hqn
  have hlt_edges : (foldUnlink prs st).num_edges < st.num_edges :=
    foldUnlink_edges_lt hn prs st hg _ hm hcpq
  have hgf : GraphInv pts.length (foldUnlink prs st) := foldUnlink_GraphInv hn prs st hg
  have hgc : GraphInv pts.length (commit (mkCtx pts) st) := by
    refine ⟨?_, ?_, ?_⟩
    · intro u v h
      rw [hcc] at h
      exact hgf.1 u v h
    · intro u v
      rw [hcc]
      exact hgf.2.1 u v
    · rw [hce, hcc]
      exact hgf.2.2
  have hcov2 : Coverage (mkCtx pts) (commit (mkCtx pts) st) := by
    intro a2 b2 hc2
    rw [hcc] at hc2
    have hc2s : st.conn a2 b2 = true := foldUnlink_mono prs st a2 b2 hc2
    obtain ⟨k2, ln2, hl2, hsep2⟩ := hcov a2 b2 hc2s
    by_cases hk2 : k2 = (selectIdx (mkCtx pts) st).2
    · exfalso
      rw [hk2, hln] at hl2
      have hlneq : ln2 = ln := by
        injection hl2 with h
        exact h.symm
      rw [hlneq] at hsep2
      obtain ⟨p2, q2, hp2, hq2, hq2n, hor⟩ := hsep2
      rcases hor with ⟨hpa2, hqb2⟩ | ⟨hpb2, hqa2⟩
      · have hm2 : ((orderOf (mkCtx pts) ln.axis).getD p2 0,
            (orderOf (mkCtx pts) ln.axis).getD q2 0) ∈ prs := by
          rw [hprs]
          exact mem_crossPairs hp2 hq2 hq2n
        have hclr := (foldUnlink_clears prs st hg.2.1 _ hm2).1
        simp only [hpa2, hqb2] at hclr
        rw [hclr] at hc2
        simp at hc2
      · have hm2 : ((orderOf (mkCtx pts) ln.axis).getD p2 0,
            (orderOf (mkCtx pts) ln.axis).getD q2 0) ∈ prs := by
          rw [hprs]
          exact mem_crossPairs hp2 hq2 hq2n
        have hclr := (foldUnlink_clears prs st hg.2.1 _ hm2).2
        simp only [hpb2, hqa2] at hclr
        rw [hclr] at hc2
        simp at hc2
    · refine ⟨k2, ln2, ?_, hsep2⟩
      rw [hcl, getD_set_ne _ _ _ _ _ (fun h => hk2 h.symm)]
      exact hl2
  have hlc : liveCount (commit (mkCtx pts) st) + 1 = liveCount st := by
    unfold liveCount
    rw [hcl]
    exact liveCount_set hsel.1 hln
  refine ⟨⟨hgc, hcov2⟩, ?_, hlc, hs1, hsel.1, hsome⟩
  rw [hce]
  exact hlt_edges

/-! ### Running the loop to completion -/

lemma initState_inv {pts : List Pt} (hv : Valid pts) : EngInv pts (initState pts) :=
  ⟨initState_GraphInv hv.1, initState_coverage hv⟩

lemma engInv_live_of_pos {pts : List Pt} {st : EngState}
    (hI : EngInv pts st) (hpos : 0 < st.num_edges) : 1 ≤ liveCount st := by
  obtain ⟨hg, hcov⟩ := hI
  have hEc : 0 < edgeCount st.conn pts.length := by
    rw [← hg.2.2]
    exact hpos
  obtain ⟨a, b, _, _, hab⟩ := edgeCount_pos_exists hEc
  obtain ⟨k, ln, hl, _⟩ := hcov a b hab
  exact liveCount_pos hl

lemma run_halts {pts : List Pt} (hv : Valid pts) :
    ∀ (f : Nat) (st : EngState), EngInv pts st → liveCount st ≤ f →
      (run (mkCtx pts) f st).num_edges = 0 := by
  intro f
  induction f with
  | zero =>
      intro st hI hl
      rw [run_zero]
      by_contra hc
      have hlive := engInv_live_of_pos hI (by omega)
      omega
  | succ f ih =>
      intro st hI hl
      by_cases h : st.num_edges = 0
      · rw [run_zero_edges _ _ h]
        exact h
      · rw [run_succ, if_neg h]
        have hP := commit_progress hv hI (by omega)
        have hlive := engInv_live_of_pos hI (by omega)
        exact ih (commit (mkCtx pts) st) hP.1 (by omega)

lemma run_preserves_inv {pts : List Pt} (hv : Valid pts) :
    ∀ (f : Nat) (st : EngState), EngInv pts st → EngInv pts (run (mkCtx pts) f st) := by
  intro f
  induction f with
  | zero =>
      intro st hI
      rw [run_zero]
      exact hI
  | succ f ih =>
      intro st hI
      by_cases h : st.num_edges = 0
      · rw [run_zero_edges _ _ h]
        exact hI
      · rw [run_succ, if_neg h]
        exact ih (commit (mkCtx pts) st) (commit_progress hv hI (by omega)).1

lemma liveCount_init {pts : List Pt} (hn1 : 1 ≤ pts.length) (hn : pts.length ≤ 100) :
    liveCount (initState pts) = 2 * (pts.length - 1) := by
  unfold liveCount
  rw [initState_lines]
  have hall : ∀ o ∈ (pre_separate (mkCtx pts)).map some, o.isSome = true := by
    intro o ho
    obtain ⟨x, _, hx⟩ := List.mem_map.mp ho
    rw [← hx]
    rfl
  rw [List.countP_eq_length.mpr hall, List.length_map, pre_separate_length hn1 hn]

lemma initState_edges_zero_of_n0 {pts : List Pt} (hv : Valid pts)
    (h0 : pts.length = 0) : (initState pts).num_edges = 0 := by
  rw [initState_edges, link_points_snd_small hv.1, h0]

lemma main_halts {pts : List Pt} (hv : Valid pts) :
    (run (mkCtx pts) (fuelFor pts) (initState pts)).num_edges = 0 := by
  rcases Nat.eq_zero_or_pos pts.length with h0 | h1
  · have hz := initState_edges_zero_of_n0 hv h0
    rw [run_zero_edges _ _ hz]
    exact hz
  · refine run_halts hv (fuelFor pts) (initState pts) (initState_inv hv) ?_
    rw [liveCount_init h1 hv.1]
    unfold fuelFor
    omega

lemma edges_zero_conn_false {n : Nat} {st : EngState}
    (hg : GraphInv n st) (hz : st.num_edges = 0) : ∀ a b, st.conn a b = false := by
  intro a b
  by_contra hc
  rw [Bool.not_eq_false] at hc
  obtain ⟨ha, hb, hab⟩ := hg.1 a b hc
  have hba : st.conn b a = true := by
    rw [hg.2.1 b a]
    exact hc
  have h2 : 2 ≤ edgeCount st.conn n := two_le_edgeCount ha hb hab hc hba
  rw [← hg.2.2] at h2
  omega

lemma run_stable {pts : List Pt} {f g : Nat}
    (hf : (run (mkCtx pts) f (initState pts)).num_edges = 0) (hfg : f ≤ g) :
    run (mkCtx pts) g (initState pts) = run (mkCtx pts) f (initState pts) := by
  have hsplit : g = f + (g - f) := by omega
  rw [hsplit, run_add]
  exact run_zero_edges _ _ hf

/-! ### Parity of the edge counter -/

lemma edgeCount_even {conn : Nat → Nat → Bool} (hsym : ∀ u v, conn u v = conn v u)
    (hirr : ∀ u, conn u u = false) (n : Nat) : edgeCount conn n % 2 = 0 := by
  induction n with
  | zero => simp [edgeCount]
  | succ n ih =>
      have hin : ∀ u, (∑ v ∈ Finset.range (n + 1), if conn u v = true then 1 else 0)
          = (∑ v ∈ Finset.range n, if conn u v = true then 1 else 0)
            + (if conn u n = true then 1 else 0) := fun u => Finset.sum_range_succ _ n
      have hdecomp : edgeCount conn (n + 1)
          = edgeCount conn n
            + (∑ u ∈ Finset.range n, if conn u n = true then 1 else 0)
            + ((∑ v ∈ Finset.range n, if conn n v = true then 1 else 0)
              + (if conn n n = true then 1 else 0)) := by
        unfold edgeCount
        rw [Finset.sum_range_succ]
        rw [Finset.sum_congr rfl (fun u _ => hin u), Finset.sum_add_distrib, hin n]
      have hmirror : (∑ v ∈ Finset.range n, if conn n v = true then 1 else 0)
          = (∑ u ∈ Finset.range n, if conn u n = true then 1 else 0) :=
        Finset.sum_congr rfl (fun v _ => by rw [hsym n v])
      have hdiag : (if conn n n = true then 1 else 0) = 0 := by simp [hirr n]
      rw [hdecomp, hmirror, hdiag]
      omega

lemma graphInit_conn (n : Nat) : (graphInit n).conn = (link_points n 0).1 := by
  simp only [graphInit]

lemma graphInit_edges (n : Nat) : (graphInit n).num_edges = (link_points n 0).2 := by
  simp only [graphInit]

/-! ## Claim theorems -/

/-- C1 (amended): for every nonempty instance satisfying the engine
preconditions (at most MAX_POINTS points, distinct, x-sorted) whose
coordinates lie within the exact-float domain (`FloatExact`: magnitudes
at most 2^23, so every `(float)` cast, midpoint and comparison the
program performs is exact and the rational engine coincides with the
float execution), the greedy main loop halts after at most `2 * (n - 1)`
commit iterations (extra fuel is never used), the loop guard exits as
soon as `num_edges` reaches 0, and on exit `num_edges` is 0 with every
directed connection entry inactive, i.e. every pair of distinct points
has been unlinked.  Without the coordinate bound the claim is false
(`C1_float_collapse_cex`: two distinct x coordinates cast to the same
float and the loop never terminates), and for the empty instance the
`pre_separate` underflow (C4) fires before the loop is reached. -/
theorem C1_loop_terminates (pts : List Pt) (hv : Valid pts)
    (hne : 1 ≤ pts.length) (hfe : FloatExact pts) :
    (run (mkCtx pts) (fuelFor pts) (initState pts)).num_edges = 0
    ∧ (∀ f, fuelFor pts ≤ f →
        run (mkCtx pts) f (initState pts) = run (mkCtx pts) (fuelFor pts) (initState pts))
    ∧ (∀ (f : Nat) (st : EngState), st.num_edges = 0 → run (mkCtx pts) f st = st)
    ∧ (∀ a b, (run (mkCtx pts) (fuelFor pts) (initState pts)).conn a b = false) := by
  have hz := main_halts hv
  refine ⟨hz, fun f hf => run_stable hz hf, fun f st h => run_zero_edges _ _ h, ?_⟩
  have hI : EngInv pts (run (mkCtx pts) (fuelFor pts) (initState pts)) :=
    run_preserves_inv hv (fuelFor pts) (initState pts) (initState_inv hv)
  exact edges_zero_conn_false hI.1 hz

/-- Witness for C1 at the two-point instance of spec Scenario C. -/
theorem C1_loop_terminates_witness :
    Valid pts2 ∧ 1 ≤ pts2.length ∧ FloatExact pts2
    ∧ (run (mkCtx pts2) (fuelFor pts2) (initState pts2)).num_edges = 0 :=
  ⟨by decide, by decide, by decide,
    (C1_loop_terminates pts2 (by decide) (by decide) (by decide)).1⟩

/-- C2 (amended): for a nonempty instance within the exact-float domain
(`FloatExact`, under which the rational engine coincides with the float
execution), in every iteration of the main loop (any reachable state with
links remaining), the selected slot is live (non-consumed), its score is
maximal over every pool slot (consumed slots score 0, so in particular
over all non-consumed candidates), and every earlier slot scores strictly
less — so among equal maximal scores the first-enumerated candidate wins
and a later candidate replaces the current best only when strictly
greater.  Without the coordinate bound the liveness part is false
(`C2_float_collapse_cex`: the float execution reaches a state with links
remaining where the selection returns an already-consumed NULL slot). -/
theorem C2_selection_first_argmax (pts : List Pt) (hv : Valid pts) (k : Nat)
    (hne : 1 ≤ pts.length) (hfe : FloatExact pts)
    (hpos : 0 < (reachState pts k).num_edges) :
    (selectIdx (mkCtx pts) (reachState pts k)).2 < (reachState pts k).lines.length
    ∧ (reachState pts k).lines.getD (selectIdx (mkCtx pts) (reachState pts k)).2 none ≠ none
    ∧ (selectIdx (mkCtx pts) (reachState pts k)).1
        = selScore (mkCtx pts) (reachState pts k) (selectIdx (mkCtx pts) (reachState pts k)).2
    ∧ (∀ j, j < (reachState pts k).lines.length →
        selScore (mkCtx pts) (reachState pts k) j
          ≤ (selectIdx (mkCtx pts) (reachState pts k)).1)
    ∧ (∀ j, j < (selectIdx (mkCtx pts) (reachState pts k)).2 →
        selScore (mkCtx pts) (reachState pts k) j
          < (selectIdx (mkCtx pts) (reachState pts k)).1) := by
  have hI : EngInv pts (reachState pts k) :=
    run_preserves_inv hv k (initState pts) (initState_inv hv)
  have hP := commit_progress hv hI hpos
  have hlen : 1 ≤ (reachState pts k).lines.length := by
    have := hP.2.2.2.2.1
    omega
  have hsel := selectIdx_spec (mkCtx pts) (reachState pts k) hlen
  exact ⟨hP.2.2.2.2.1, hP.2.2.2.2.2, hsel.2.1, hsel.2.2.1, hsel.2.2.2⟩

/-- Witness for C2 at the first iteration of the two-point instance. -/
theorem C2_selection_first_argmax_witness :
    Valid pts2 ∧ FloatExact pts2 ∧ (0 < (reachState pts2 0).num_edges)
    ∧ (selectIdx (mkCtx pts2) (reachState pts2 0)).2 < (reachState pts2 0).lines.length :=
  ⟨by decide, by decide, by decide,
    (C2_selection_first_argmax pts2 (by decide) 0 (by decide) (by decide) (by decide)).1⟩

/-- C7: on a consistent graph state, unlinking an active pair deactivates
both directions and decreases `num_edges` by exactly 2; unlinking an
already-removed pair changes nothing; and a second unlink of the same
pair is always a no-op, so the counter is never double-decremented. -/
theorem C7_unlink_idempotent (n : Nat) (st : EngState) (a b : Nat)
    (hn : n ≤ 100) (hg : GraphInv n st) (ha : a < n) (hb : b < n) (hab : a ≠ b) :
    (st.conn a b = true →
        (unlink_points st a b).conn a b = false
        ∧ (unlink_points st a b).conn b a = false
        ∧ (unlink_points st a b).num_edges + 2 = st.num_edges)
    ∧ (st.conn a b = false → unlink_points st a b = st)
    ∧ unlink_points (unlink_points st a b) a b = unlink_points st a b := by
  refine ⟨?_, ?_, ?_⟩
  · intro hc
    have hcl := unlink_clears hg.2.1 a b
    have hba : st.conn b a = true := by
      rw [hg.2.1 b a]
      exact hc
    refine ⟨hcl.1, hcl.2, ?_⟩
    rw [unlink_active hc]
    simp only
    have h2 : 2 ≤ st.num_edges := by
      rw [hg.2.2]
      exact two_le_edgeCount ha hb hab hc hba
    have hlt : st.num_edges < U32 := by
      rw [hg.2.2]
      have h1 := edgeCount_le st.conn n
      have h3 : n * n ≤ 100 * 100 := Nat.mul_le_mul hn hn
      have h32 : U32 = 4294967296 := U32_eq
      omega
    rw [u32sub2_eq h2 hlt]
    omega
  · intro hc
    exact unlink_noop (by rw [hc]; simp)
  · by_cases hc : st.conn a b = true
    · have hcl := unlink_clears hg.2.1 a b
      exact unlink_noop (by rw [hcl.1]; simp)
    · rw [unlink_noop hc, unlink_noop hc]

/-- Witness for C7 on the freshly linked two-point graph. -/
theorem C7_unlink_idempotent_witness :
    (initState pts2).conn 0 1 = true
    ∧ (unlink_points (initState pts2) 0 1).conn 0 1 = false
    ∧ (unlink_points (initState pts2) 0 1).num_edges + 2 = (initState pts2).num_edges := by
  have h := (C7_unlink_idempotent 2 (initState pts2) 0 1 (by norm_num)
    (initState_GraphInv (by decide)) (by norm_num) (by norm_num) (by norm_num)).1
    (by decide)
  exact ⟨by decide, h.1, h.2.2⟩

/-- C8 (amended): for a nonempty instance within the exact-float domain
(`FloatExact`, under which the rational engine coincides with the float
execution), across iterations of the main loop the active link count is
non-increasing, and on every commit (whenever links remain) it strictly
decreases: the chosen candidate has score at least 1 at the moment it is
chosen and is a live slot, so a zero-score candidate is never selected
while some candidate has positive score.  Without the coordinate bound
the strict-decrease and score parts are false
(`C8_float_collapse_cex`: the float execution selects a score-0 candidate
while 2 links remain and the commit leaves `num_edges` unchanged). -/
theorem C8_monotone_decrease (pts : List Pt) (hv : Valid pts) (k : Nat)
    (hne : 1 ≤ pts.length) (hfe : FloatExact pts) :
    (reachState pts (k + 1)).num_edges ≤ (reachState pts k).num_edges
    ∧ (0 < (reachState pts k).num_edges →
        (commit (mkCtx pts) (reachState pts k)).num_edges < (reachState pts k).num_edges
        ∧ 1 ≤ (selectIdx (mkCtx pts) (reachState pts k)).1
        ∧ (reachState pts k).lines.getD
            (selectIdx (mkCtx pts) (reachState pts k)).2 none ≠ none) := by
  have hI : EngInv pts (reachState pts k) :=
    run_preserves_inv hv k (initState pts) (initState_inv hv)
  constructor
  · have hstep : reachState pts (k + 1)
        = if (reachState pts k).num_edges = 0 then reachState pts k
          else commit (mkCtx pts) (reachState pts k) :=
      run_succ_end (mkCtx pts) k (initState pts)
    rw [hstep]
    split
    · exact le_refl _
    · rename_i hne
      exact le_of_lt (commit_progress hv hI (by omega)).2.1
  · intro hpos
    have hP := commit_progress hv hI hpos
    exact ⟨hP.2.1, hP.2.2.2.1, hP.2.2.2.2.2⟩

/-- Witness for C8 at the first iteration of the two-point instance. -/
theorem C8_monotone_decrease_witness :
    Valid pts2 ∧ FloatExact pts2
    ∧ (commit (mkCtx pts2) (reachState pts2 0)).num_edges
        < (reachState pts2 0).num_edges :=
  ⟨by decide, by decide,
    ((C8_monotone_decrease pts2 (by decide) 0 (by decide) (by decide)).2 (by decide)).1⟩

/-- C10: the connectivity graph invariant — after `link_points` and after
any sequence of `unlink_points` or `finalize_lines` calls, the connection
matrix is symmetric (and supported on distinct in-range indices) and
`num_edges` equals the number of active directed entries; consequently
`num_edges` is always even. -/
theorem C10_graph_invariant (n : Nat) (hn : n ≤ 100) :
    GraphInv n (graphInit n)
    ∧ (∀ (st : EngState) (a b : Nat), GraphInv n st → GraphInv n (unlink_points st a b))
    ∧ (∀ (ctx : Ctx) (oln : Option Line) (st : EngState), GraphInv n st →
        GraphInv n (finalize_lines ctx oln st))
    ∧ (∀ st : EngState, GraphInv n st → st.num_edges % 2 = 0) := by
  refine ⟨⟨?_, ?_, ?_⟩, ?_, ?_, ?_⟩
  · intro a b h
    rw [graphInit_conn] at h
    exact (link_points_conn _ _ _ _).mp h
  · intro a b
    rw [graphInit_conn]
    exact link_points_sym _ _ a b
  · rw [graphInit_conn, graphInit_edges, link_points_snd_small hn, edgeCount_complete]
  · intro st a b hg
    exact unlink_GraphInv hn hg a b
  · intro ctx oln st hg
    exact finalize_GraphInv hn ctx oln hg
  · intro st hg
    have hirr : ∀ u, st.conn u u = false := by
      intro u
      by_contra hc
      rw [Bool.not_eq_false] at hc
      exact (hg.1 u u hc).2.2 rfl
    rw [hg.2.2]
    exact edgeCount_even hg.2.1 hirr n

/-- Witness for C10 on the two-element complete graph. -/
theorem C10_graph_invariant_witness :
    2 ≤ 100 ∧ (graphInit 2).num_edges = edgeCount (graphInit 2).conn 2 :=
  ⟨by norm_num, ((C10_graph_invariant 2 (by norm_num)).1).2.2⟩

/-! ### Claims about closest_point (C3) -/

/-- C3 counterexample: the claim says `closest_point` returns the largest
sorted index with coordinate ≤ the line's coordinate and `-1` exactly when
no point qualifies.  On the sorted one-point set `[0]` with a line at 1,
the point at index 0 qualifies (0 ≤ 1 and would be the largest such
index), yet the scan finds no coordinate exceeding 1 and returns `-1`. -/
theorem C3_closest_point_cex :
    closest_point [(0 : ℚ)] 1 = -1 ∧ (0 : ℚ) ≤ 1 ∧ 0 < [(0 : ℚ)].length := by
  refine ⟨by decide, by decide, by decide⟩

/-- C3 amended: on a sorted coordinate list, provided at least one point
coordinate strictly exceeds the line's coordinate, `closest_point` is the
largest index whose coordinate is ≤ the line's (an index satisfies the
coordinate bound iff it is ≤ the returned value); when no coordinate
exceeds the line's — in particular when the line is below/left of all
points, but also when it is at/above all of them — the function returns
`-1`. -/
theorem C3_closest_point_amended (coords : List ℚ) (c : ℚ)
    (hs : List.Pairwise (fun x y : ℚ => x ≤ y) coords) :
    ((∃ i, i < coords.length ∧ c < coords.getD i 0) →
      (∀ i, i < coords.length →
        (coords.getD i 0 ≤ c ↔ (i : Int) ≤ closest_point coords c)))
    ∧ ((∀ i, i < coords.length → coords.getD i 0 ≤ c) →
        closest_point coords c = -1) := by
  constructor
  · intro hex i hi
    have hfound := natSplit_found hex
    rw [closest_point_eq_natSplit]
    constructor
    · intro hle
      have hlt2 : i < natSplit coords c := by
        by_contra hcon
        push_neg at hcon
        have hgt : c < coords.getD i 0 := by
          rcases Nat.eq_or_lt_of_le hcon with heq | hlt3
          · rw [← heq]
            exact hfound.2
          · exact lt_of_lt_of_le hfound.2 (pairwise_getD hs 0 hlt3 hi)
        exact absurd hle (not_le.mpr hgt)
      omega
    · intro hle
      have hlt2 : i < natSplit coords c := by omega
      exact natSplit_lowside hlt2
  · exact closest_point_none

/-- Witness for the amended C3 on the sorted list `[0, 2]` with line 1. -/
theorem C3_closest_point_amended_witness :
    List.Pairwise (fun x y : ℚ => x ≤ y) [(0 : ℚ), 2]
    ∧ ((0 : ℚ) ≤ 1 ↔ (0 : Int) ≤ closest_point [(0 : ℚ), 2] 1) := by
  constructor
  · decide
  · have h := (C3_closest_point_amended [(0 : ℚ), 2] 1 (by decide)).1
      ⟨1, by decide, by decide⟩ 0 (by decide)
    simpa using h

/-! ### The n = 0 underflow of pre_separate (C4) -/

/-- C4 (code bug at the failing input n = 0): the claim (and the spec)
say candidate generation produces zero candidates when n ≤ 1, but the C
loop bound is the unsigned expression `num_points - 1`, which for
`num_points = 0` wraps to `2^32 - 1`; the loops then run `2^32 - 1` times
per axis, reading `x_points[i]` far out of bounds (undefined behaviour in
C, modelled by `getD` defaults) instead of generating no candidates. -/
theorem C4_pre_separate_n0_overflow :
    (pre_separate (mkCtx ([] : List Pt))).length = 2 * (U32 - 1)
    ∧ 2 * (U32 - 1) ≠ 0 := by
  constructor
  · have h0 : (mkCtx ([] : List Pt)).pts.length = 0 := rfl
    unfold pre_separate
    rw [h0, u32sub1_zero, List.length_append, List.length_map, List.length_map,
      List.length_range]
    omega
  · have := U32_eq
    omega

/-! ### No pool-exhaustion check exists (C5) -/

lemma set_none_of_getD_none {l : List (Option Line)} {i : Nat}
    (h : l.getD i none = none) : l.set i none = l := by
  induction l generalizing i with
  | nil => rfl
  | cons hd tl ih =>
      cases i with
      | zero =>
          have hhd : hd = none := by simpa using h
          rw [hhd]
          rfl
      | succ i =>
          have h2 : tl.getD i none = none := by simpa using h
          rw [List.set_cons_succ, ih h2]

lemma commit_all_none (ctx : Ctx) {st : EngState}
    (h : ∀ k, st.lines.getD k none = none) : commit ctx st = st := by
  have hscore : ∀ j, selScore ctx st j = 0 := fun j => selScore_none (h j)
  have hfold : ∀ l : List Nat,
      l.foldl (fun bi j => if bi.1 < selScore ctx st j then (selScore ctx st j, j) else bi)
        (selScore ctx st 0, 0) = (selScore ctx st 0, 0) := by
    intro l
    induction l with
    | nil => rfl
    | cons j l ih =>
        simp only [List.foldl_cons]
        have hcond : ¬ ((selScore ctx st 0, 0).1 < selScore ctx st j) := by
          show ¬ (selScore ctx st 0 < selScore ctx st j)
          rw [hscore j, hscore 0]
          omega
        rw [if_neg hcond]
        exact ih
  have hsel : selectIdx ctx st = (0, 0) := by
    unfold selectIdx
    rw [hfold, hscore 0]
  have hfin : finalize_lines ctx (st.lines.getD (selectIdx ctx st).2 none) st = st := by
    rw [h _]
    rfl
  have hcommit : commit ctx st = { st with lines := st.lines.set (selectIdx ctx st).2 none } := by
    simp only [commit, hfin]
  rw [hcommit, hsel]
  rw [set_none_of_getD_none (h 0)]

lemma run_fixed {ctx : Ctx} {st : EngState} (h : commit ctx st = st) :
    ∀ f, run ctx f st = st := by
  intro f
  induction f with
  | zero => rfl
  | succ f ih =>
      rw [run_succ]
      split
      · rfl
      · rw [h]
        exact ih

/-- C5 counterexample: the claim says the engine checks for pool
exhaustion on every iteration and surfaces a fatal error rather than
silently failing to terminate.  In `stuckState` — both pool slots
consumed (`lines[..] = NULL`) while 2 directed links remain — one loop
iteration returns the state unchanged with no error of any kind, and
iterating 1000 more times changes nothing: the `while (num_edges > 0)`
loop spins forever. -/
theorem C5_no_exhaustion_check_cex :
    commit (mkCtx pts2) stuckState = stuckState
    ∧ run (mkCtx pts2) 1000 stuckState = stuckState
    ∧ 0 < stuckState.num_edges := by
  have hh : ∀ k, stuckState.lines.getD k none = none := by
    intro k
    rcases k with _ | _ | k <;> rfl
  have hc := commit_all_none (mkCtx pts2) hh
  exact ⟨hc, run_fixed hc 1000, by decide⟩

/-- C5 amended: the code performs no pool-exhaustion check at all.  When
every pool slot has been consumed while links remain, the iteration body
silently leaves the state unchanged (NULL selection, `finalize_lines`
no-op, re-NULL of slot 0), so the loop never terminates and no error is
surfaced.  (For valid inputs this situation is unreachable, by C1.) -/
theorem C5_exhaustion_silent (ctx : Ctx) (st : EngState)
    (h : ∀ k, st.lines.getD k none = none) :
    commit ctx st = st ∧ ∀ f, run ctx f st = st := by
  have hc := commit_all_none ctx h
  exact ⟨hc, run_fixed hc⟩

/-- Witness for the amended C5 at the concrete exhausted state. -/
theorem C5_exhaustion_silent_witness :
    (∀ k, stuckState.lines.getD k none = none)
    ∧ commit (mkCtx pts2) stuckState = stuckState := by
  have hh : ∀ k, stuckState.lines.getD k none = none := by
    intro k
    rcases k with _ | _ | k <;> rfl
  exact ⟨hh, (C5_exhaustion_silent (mkCtx pts2) stuckState hh).1⟩

/-! ### The graph-construction check terminates the whole program (C6) -/

/-- C6 counterexample: the claim says a failed graph-construction check
aborts only the current instance and the caller continues with the next
instance.  With the edge counter entering `link_points` at 1 (the only
way the check can fail), the realized count for the two-point instance is
3 ≠ 2, and the program produces NO solutions at all — the second instance
is never processed — because the C code calls `exit(0)`.  The same second
instance alone yields its (empty) solution, so the claimed continuation
does not happen. -/
theorem C6_exit_not_instance_local_cex :
    runProgram [pts2, pts1] 1 = [] ∧ runProgram [pts1] 0 = [[]] := by
  constructor
  · decide
  · decide

/-- C6 amended: when the realized directed-link count differs from
`n * (n - 1)` the program prints and exits entirely — the current
instance produces no solution AND no further instances are processed;
when the count equals `n * (n - 1)` (always the case when the counter
starts at 0 and n ≤ MAX_POINTS), initialization succeeds with every
distinct ordered pair linked. -/
theorem C6_graph_check_amended (n e0 : Nat) (pts : List Pt) (rest : List (List Pt))
    (hn : pts.length = n) (hle : n ≤ 100) :
    (link_points_checked n e0 = LinkResult.programExit →
      runProgram (pts :: rest) e0 = [])
    ∧ link_points_checked n 0 = LinkResult.ok (link_points n 0)
    ∧ (∀ a b, (link_points n 0).1 a b = true ↔ (a < n ∧ b < n ∧ a ≠ b)) := by
  refine ⟨?_, ?_, fun a b => link_points_conn n 0 a b⟩
  · intro hexit
    unfold runProgram
    rw [hn, hexit]
  · unfold link_points_checked
    simp only
    rw [link_points_snd_small hle]
    have hcond : n * (n - 1) = (n * u32sub1 n) % U32 := by
      rcases Nat.eq_zero_or_pos n with h0 | h1
      · rw [h0]
        simp
      · rw [u32sub1_eq h1 (by have := U32_eq; omega)]
        have hb : n * (n - 1) < U32 := by
          have h2 : n * (n - 1) ≤ 100 * 100 := Nat.mul_le_mul hle (by omega)
          have := U32_eq
          omega
        rw [Nat.mod_eq_of_lt hb]
    rw [if_pos hcond]

/-- Witness for the amended C6: the failing counter state at n = 2. -/
theorem C6_graph_check_amended_witness :
    link_points_checked 2 1 = LinkResult.programExit
    ∧ runProgram [pts2] 1 = [] := by
  have h1 : (link_points 2 1).2 = 3 := by
    rw [link_points_snd 2 1 (by have := U32_eq; omega)]
    have h3 : 1 + 2 * (2 - 1) = 3 := by norm_num
    rw [h3, Nat.mod_eq_of_lt (by have := U32_eq; omega)]
  have h2 : (2 * u32sub1 2) % U32 = 2 := by
    rw [u32sub1_eq (by omega) (by have := U32_eq; omega)]
    have h3 : 2 * (2 - 1) = 2 := by norm_num
    rw [h3, Nat.mod_eq_of_lt (by have := U32_eq; omega)]
  have hexit : link_points_checked 2 1 = LinkResult.programExit := by
    unfold link_points_checked
    simp only
    rw [h1, h2]
    norm_num
  exact ⟨hexit,
    (C6_graph_check_amended 2 1 pts2 [] rfl (by norm_num)).1 hexit⟩

/-! ### Scenario C: the two-point instance (C9) -/

/-- C9: for the two points (0,0) and (2,2): the candidate pool is exactly
[vertical at x = 1, horizontal at y = 1] (in that enumeration order),
both candidates score 1 against the single active link (2 directed
entries), the tie-break selects the vertical candidate at slot 0, and
running the loop commits it, leaving active link count 0 and solution
[vertical, 1.0]. -/
theorem C9_two_point_scenario :
    pre_separate (mkCtx pts2) = [⟨Axis.V, 1⟩, ⟨Axis.H, 1⟩]
    ∧ links_to_break (mkCtx pts2) (initState pts2).conn (some ⟨Axis.V, 1⟩) = 1
    ∧ links_to_break (mkCtx pts2) (initState pts2).conn (some ⟨Axis.H, 1⟩) = 1
    ∧ selectIdx (mkCtx pts2) (initState pts2) = (1, 0)
    ∧ (initState pts2).num_edges = 2
    ∧ (run (mkCtx pts2) 2 (initState pts2)).num_edges = 0
    ∧ (run (mkCtx pts2) 2 (initState pts2)).final_lines = [⟨Axis.V, 1⟩] := by
  have hcV : coordsOf (mkCtx pts2) Axis.V = [0, 2] := by decide
  have hcH : coordsOf (mkCtx pts2) Axis.H = [0, 2] := by decide
  have hu : u32sub1 (mkCtx pts2).pts.length = 1 := by decide
  have hpool : pre_separate (mkCtx pts2) = [⟨Axis.V, 1⟩, ⟨Axis.H, 1⟩] := by
    unfold pre_separate
    rw [hu]
    have hr1 : List.range 1 = [0] := rfl
    rw [hr1]
    simp only [List.map_cons, List.map_nil, List.cons_append, List.nil_append]
    have haV0 : axisCoordAt (mkCtx pts2) Axis.V 0 = 0 := by
      unfold axisCoordAt
      rw [hcV]
      rfl
    have haV1 : axisCoordAt (mkCtx pts2) Axis.V 1 = 2 := by
      unfold axisCoordAt
      rw [hcV]
      rfl
    have haH0 : axisCoordAt (mkCtx pts2) Axis.H 0 = 0 := by
      unfold axisCoordAt
      rw [hcH]
      rfl
    have haH1 : axisCoordAt (mkCtx pts2) Axis.H 1 = 2 := by
      unfold axisCoordAt
      rw [hcH]
      rfl
    rw [haV0, haV1, haH0, haH1]
    norm_num
  have hlines0 : (initState pts2).lines = [some ⟨Axis.V, 1⟩, some ⟨Axis.H, 1⟩] := by
    rw [initState_lines, hpool]
    rfl
  have hnsV : natSplit (coordsOf (mkCtx pts2) Axis.V) 1 = 1 := by
    rw [hcV]
    decide
  have hnsH : natSplit (coordsOf (mkCtx pts2) Axis.H) 1 = 1 := by
    rw [hcH]
    decide
  have hltbV : links_to_break (mkCtx pts2) (initState pts2).conn (some ⟨Axis.V, 1⟩) = 1 := by
    have heq : links_to_break (mkCtx pts2) (initState pts2).conn (some ⟨Axis.V, 1⟩)
        = countCross (initState pts2).conn (orderOf (mkCtx pts2) Axis.V)
            (natSplit (coordsOf (mkCtx pts2) Axis.V) 1) (mkCtx pts2).pts.length := rfl
    rw [heq, hnsV, initState_conn]
    decide
  have hltbH : links_to_break (mkCtx pts2) (initState pts2).conn (some ⟨Axis.H, 1⟩) = 1 := by
    have heq : links_to_break (mkCtx pts2) (initState pts2).conn (some ⟨Axis.H, 1⟩)
        = countCross (initState pts2).conn (orderOf (mkCtx pts2) Axis.H)
            (natSplit (coordsOf (mkCtx pts2) Axis.H) 1) (mkCtx pts2).pts.length := rfl
    rw [heq, hnsH, initState_conn]
    decide
  have hss0 : selScore (mkCtx pts2) (initState pts2) 0 = 1 := by
    unfold selScore
    rw [hlines0]
    simp only [List.getD_cons_zero]
    exact hltbV
  have hss1 : selScore (mkCtx pts2) (initState pts2) 1 = 1 := by
    unfold selScore
    rw [hlines0]
    simp only [List.getD_cons_succ, List.getD_cons_zero]
    exact hltbH
  have hlen2 : (initState pts2).lines.length = 2 := by
    rw [hlines0]
    rfl
  have hsel : selectIdx (mkCtx pts2) (initState pts2) = (1, 0) := by
    unfold selectIdx
    rw [hlen2]
    have hr : List.range' 1 (2 - 1) = [1] := rfl
    rw [hr]
    simp only [List.foldl_cons, List.foldl_nil]
    rw [hss1, hss0]
    norm_num
  have hchosen : (initState pts2).lines.getD
      (selectIdx (mkCtx pts2) (initState pts2)).2 none = some ⟨Axis.V, 1⟩ := by
    rw [hsel, hlines0]
    rfl
  have hax : (⟨Axis.V, (1 : ℚ)⟩ : Line).axis = Axis.V := rfl
  have hco : (⟨Axis.V, (1 : ℚ)⟩ : Line).coord = 1 := rfl
  have hcp : crossPairs (orderOf (mkCtx pts2) Axis.V) 1 (mkCtx pts2).pts.length
      = [(0, 1)] := by decide
  have hfe : (finalize_lines (mkCtx pts2) (some ⟨Axis.V, 1⟩) (initState pts2)).num_edges
      = (foldUnlink [(0, 1)] (initState pts2)).num_edges := by
    rw [finalize_some]
    show (foldUnlink (crossPairs (orderOf (mkCtx pts2) (⟨Axis.V, (1 : ℚ)⟩ : Line).axis)
      (natSplit (coordsOf (mkCtx pts2) (⟨Axis.V, (1 : ℚ)⟩ : Line).axis)
        (⟨Axis.V, (1 : ℚ)⟩ : Line).coord) (mkCtx pts2).pts.length)
      (initState pts2)).num_edges = _
    rw [hax, hco, hnsV, hcp]
  have hce0 : (commit (mkCtx pts2) (initState pts2)).num_edges = 0 := by
    rw [commit_edges, hchosen, hfe]
    have hfu : foldUnlink [(0, 1)] (initState pts2)
        = unlink_points (initState pts2) 0 1 := rfl
    rw [hfu]
    decide
  have hff : (finalize_lines (mkCtx pts2) (some ⟨Axis.V, 1⟩) (initState pts2)).final_lines
      = (initState pts2).final_lines ++ [⟨Axis.V, 1⟩] := by
    rw [finalize_some]
  have hcfin : (commit (mkCtx pts2) (initState pts2)).final_lines = [⟨Axis.V, 1⟩] := by
    rw [commit_final, hchosen, hff, initState_final]
    rfl
  have hrun2 : run (mkCtx pts2) 2 (initState pts2)
      = commit (mkCtx pts2) (initState pts2) := by
    have h2 : (2 : Nat) = 1 + 1 := rfl
    rw [h2, run_succ, if_neg (by decide)]
    exact run_zero_edges _ _ hce0
  refine ⟨hpool, hltbV, hltbH, hsel, by decide, ?_, ?_⟩
  · rw [hrun2]
    exact hce0
  · rw [hrun2]
    exact hcfin

/-! ### The float casts collapse large coordinates (C1, C2, C8)

The x coordinates of `ptsBig`, `2^25` and `2^25 + 1`, both round to the
binary32 value `2^25` (`castPts ptsBig = ptsCol`), so the float program
runs on two coincident points: after the casts every value it touches
(`2^25`, `0`, and the midpoints `(2^25 + 2^25)/2 = 2^25` and
`(0 + 0)/2 = 0`) is exactly representable, so the rational engine on
`ptsCol` is an exact model of the float execution on `ptsBig`.  No
coordinate of either axis ever exceeds a candidate's line coordinate, so
`closest_point` returns -1 everywhere, both candidates score 0 forever,
the selection sticks to slot 0, and the loop makes no progress. -/

lemma selectIdx_all_zero (ctx : Ctx) {st : EngState}
    (hsc : ∀ j, selScore ctx st j = 0) : selectIdx ctx st = (0, 0) := by
  have hfold : ∀ l : List Nat,
      l.foldl (fun bi j => if bi.1 < selScore ctx st j then (selScore ctx st j, j) else bi)
        (selScore ctx st 0, 0) = (selScore ctx st 0, 0) := by
    intro l
    induction l with
    | nil => rfl
    | cons j l ih =>
        simp only [List.foldl_cons]
        have hcond : ¬ ((selScore ctx st 0, 0).1 < selScore ctx st j) := by
          show ¬ (selScore ctx st 0 < selScore ctx st j)
          rw [hsc j, hsc 0]
          omega
        rw [if_neg hcond]
        exact ih
  unfold selectIdx
  rw [hfold, hsc 0]

/-- When every pool slot scores 0 and slot 0 is consumed, the loop body
is the identity: a no-progress state more general than full exhaustion
(`commit_all_none`) — a live zero-scoring candidate may remain. -/
lemma commit_all_zero (ctx : Ctx) {st : EngState}
    (hsc : ∀ j, selScore ctx st j = 0) (h0 : st.lines.getD 0 none = none) :
    commit ctx st = st := by
  have hsel : selectIdx ctx st = (0, 0) := selectIdx_all_zero ctx hsc
  have hfin : finalize_lines ctx (st.lines.getD (selectIdx ctx st).2 none) st = st := by
    rw [hsel]
    show finalize_lines ctx (st.lines.getD 0 none) st = st
    rw [h0]
    rfl
  have hcommit : commit ctx st
      = { st with lines := st.lines.set (selectIdx ctx st).2 none } := by
    simp only [commit, hfin]
  rw [hcommit, hsel]
  rw [set_none_of_getD_none h0]

lemma ptsBig_cast : castPts ptsBig = ptsCol := by decide

lemma ptsCol_coordsV : coordsOf (mkCtx ptsCol) Axis.V = [33554432, 33554432] := by decide

lemma ptsCol_coordsH : coordsOf (mkCtx ptsCol) Axis.H = [0, 0] := by decide

lemma ptsCol_pool :
    pre_separate (mkCtx ptsCol) = [⟨Axis.V, 33554432⟩, ⟨Axis.H, 0⟩] := by
  have hu : u32sub1 (mkCtx ptsCol).pts.length = 1 := by decide
  unfold pre_separate
  rw [hu]
  have hr1 : List.range 1 = [0] := rfl
  rw [hr1]
  simp only [List.map_cons, List.map_nil, List.cons_append, List.nil_append]
  have haV0 : axisCoordAt (mkCtx ptsCol) Axis.V 0 = 33554432 := by
    unfold axisCoordAt
    rw [ptsCol_coordsV]
    rfl
  have haV1 : axisCoordAt (mkCtx ptsCol) Axis.V 1 = 33554432 := by
    unfold axisCoordAt
    rw [ptsCol_coordsV]
    rfl
  have haH0 : axisCoordAt (mkCtx ptsCol) Axis.H 0 = 0 := by
    unfold axisCoordAt
    rw [ptsCol_coordsH]
    rfl
  have haH1 : axisCoordAt (mkCtx ptsCol) Axis.H 1 = 0 := by
    unfold axisCoordAt
    rw [ptsCol_coordsH]
    rfl
  rw [haV0, haV1, haH0, haH1]
  norm_num

lemma ptsCol_lines0 :
    (initState ptsCol).lines = [some ⟨Axis.V, 33554432⟩, some ⟨Axis.H, 0⟩] := by
  rw [initState_lines, ptsCol_pool]
  rfl

lemma ptsCol_nsV : natSplit (coordsOf (mkCtx ptsCol) Axis.V) 33554432 = 0 := by
  rw [ptsCol_coordsV]
  decide

lemma ptsCol_nsH : natSplit (coordsOf (mkCtx ptsCol) Axis.H) 0 = 0 := by
  rw [ptsCol_coordsH]
  decide

lemma ptsCol_ltbV :
    links_to_break (mkCtx ptsCol) (initState ptsCol).conn (some ⟨Axis.V, 33554432⟩) = 0 := by
  have heq : links_to_break (mkCtx ptsCol) (initState ptsCol).conn (some ⟨Axis.V, 33554432⟩)
      = countCross (initState ptsCol).conn (orderOf (mkCtx ptsCol) Axis.V)
          (natSplit (coordsOf (mkCtx ptsCol) Axis.V) 33554432) (mkCtx ptsCol).pts.length := rfl
  rw [heq, ptsCol_nsV, initState_conn]
  decide

lemma ptsCol_ltbH :
    links_to_break (mkCtx ptsCol) (initState ptsCol).conn (some ⟨Axis.H, 0⟩) = 0 := by
  have heq : links_to_break (mkCtx ptsCol) (initState ptsCol).conn (some ⟨Axis.H, 0⟩)
      = countCross (initState ptsCol).conn (orderOf (mkCtx ptsCol) Axis.H)
          (natSplit (coordsOf (mkCtx ptsCol) Axis.H) 0) (mkCtx ptsCol).pts.length := rfl
  rw [heq, ptsCol_nsH, initState_conn]
  decide

lemma ptsCol_scores0 : ∀ j, selScore (mkCtx ptsCol) (initState ptsCol) j = 0 := by
  intro j
  unfold selScore
  rw [ptsCol_lines0]
  rcases j with _ | _ | j
  · simp only [List.getD_cons_zero]
    exact ptsCol_ltbV
  · simp only [List.getD_cons_succ, List.getD_cons_zero]
    exact ptsCol_ltbH
  · simp only [List.getD_cons_succ, List.getD_nil]
    rfl

lemma ptsCol_sel0 : selectIdx (mkCtx ptsCol) (initState ptsCol) = (0, 0) :=
  selectIdx_all_zero (mkCtx ptsCol) ptsCol_scores0

lemma ptsCol_chosen : (initState ptsCol).lines.getD
    (selectIdx (mkCtx ptsCol) (initState ptsCol)).2 none = some ⟨Axis.V, 33554432⟩ := by
  rw [ptsCol_sel0, ptsCol_lines0]
  rfl

lemma ptsCol_cp :
    crossPairs (orderOf (mkCtx ptsCol) Axis.V) 0 (mkCtx ptsCol).pts.length = [] := by
  decide

lemma ptsCol_edges2 : (initState ptsCol).num_edges = 2 := by decide

lemma ptsCol_commit_edges :
    (commit (mkCtx ptsCol) (initState ptsCol)).num_edges = 2 := by
  rw [commit_edges, ptsCol_chosen]
  have hfe : (finalize_lines (mkCtx ptsCol) (some ⟨Axis.V, 33554432⟩)
      (initState ptsCol)).num_edges = (foldUnlink [] (initState ptsCol)).num_edges := by
    rw [finalize_some]
    show (foldUnlink (crossPairs (orderOf (mkCtx ptsCol) (⟨Axis.V, (33554432 : ℚ)⟩ : Line).axis)
      (natSplit (coordsOf (mkCtx ptsCol) (⟨Axis.V, (33554432 : ℚ)⟩ : Line).axis)
        (⟨Axis.V, (33554432 : ℚ)⟩ : Line).coord) (mkCtx ptsCol).pts.length)
      (initState ptsCol)).num_edges = _
    have hax : (⟨Axis.V, (33554432 : ℚ)⟩ : Line).axis = Axis.V := rfl
    have hco : (⟨Axis.V, (33554432 : ℚ)⟩ : Line).coord = 33554432 := rfl
    rw [hax, hco, ptsCol_nsV, ptsCol_cp]
  rw [hfe]
  exact ptsCol_edges2

lemma ptsCol_commit_conn :
    (commit (mkCtx ptsCol) (initState ptsCol)).conn = (initState ptsCol).conn := by
  rw [commit_conn, ptsCol_chosen, finalize_some]
  show (foldUnlink (crossPairs (orderOf (mkCtx ptsCol) (⟨Axis.V, (33554432 : ℚ)⟩ : Line).axis)
    (natSplit (coordsOf (mkCtx ptsCol) (⟨Axis.V, (33554432 : ℚ)⟩ : Line).axis)
      (⟨Axis.V, (33554432 : ℚ)⟩ : Line).coord) (mkCtx ptsCol).pts.length)
    (initState ptsCol)).conn = (initState ptsCol).conn
  have hax : (⟨Axis.V, (33554432 : ℚ)⟩ : Line).axis = Axis.V := rfl
  have hco : (⟨Axis.V, (33554432 : ℚ)⟩ : Line).coord = 33554432 := rfl
  rw [hax, hco, ptsCol_nsV, ptsCol_cp]
  rfl

lemma ptsCol_commit_lines :
    (commit (mkCtx ptsCol) (initState ptsCol)).lines = [none, some ⟨Axis.H, 0⟩] := by
  rw [commit_lines, ptsCol_chosen]
  have hfl : (finalize_lines (mkCtx ptsCol) (some ⟨Axis.V, 33554432⟩)
      (initState ptsCol)).lines = (initState ptsCol).lines :=
    (finalize_fields (mkCtx ptsCol) (some ⟨Axis.V, 33554432⟩) (initState ptsCol)).1
  rw [hfl, ptsCol_sel0, ptsCol_lines0]
  rfl

lemma ptsCol_st1_scores :
    ∀ j, selScore (mkCtx ptsCol) (commit (mkCtx ptsCol) (initState ptsCol)) j = 0 := by
  intro j
  unfold selScore
  rw [ptsCol_commit_lines, ptsCol_commit_conn]
  rcases j with _ | _ | j
  · rfl
  · simp only [List.getD_cons_succ, List.getD_cons_zero]
    exact ptsCol_ltbH
  · simp only [List.getD_cons_succ, List.getD_nil]
    rfl

lemma ptsCol_fix :
    commit (mkCtx ptsCol) (commit (mkCtx ptsCol) (initState ptsCol))
      = commit (mkCtx ptsCol) (initState ptsCol) :=
  commit_all_zero (mkCtx ptsCol) ptsCol_st1_scores
    (by rw [ptsCol_commit_lines]; rfl)

lemma ptsCol_run1 :
    run (mkCtx ptsCol) 1 (initState ptsCol) = commit (mkCtx ptsCol) (initState ptsCol) := by
  have h1 : (1 : Nat) = 0 + 1 := rfl
  rw [h1, run_succ, if_neg (by decide)]
  exact run_zero _ _

lemma ptsCol_run2 :
    run (mkCtx ptsCol) 2 (initState ptsCol) = commit (mkCtx ptsCol) (initState ptsCol) := by
  have h2 : (2 : Nat) = 1 + 1 := rfl
  rw [h2, run_succ, if_neg (by decide)]
  have hne2 : ¬ (commit (mkCtx ptsCol) (initState ptsCol)).num_edges = 0 := by
    rw [ptsCol_commit_edges]
    omega
  have h1 : (1 : Nat) = 0 + 1 := rfl
  rw [h1, run_succ, if_neg hne2, run_zero]
  exact ptsCol_fix

/-- C1 counterexample: the claim, as stated, quantifies over every
instance meeting the engine preconditions, but the program computes on
binary32 floats.  `ptsBig` is valid (2 distinct x-sorted points, x = 2^25
and 2^25 + 1), yet both x coordinates cast to the same float
(`castPts ptsBig = ptsCol`), so the float execution — modelled exactly by
the rational engine on the cast coordinates — still has both directed
links active after the claimed `2 * (n - 1) = 2` iterations, and that
state is a fixpoint of the loop body: `while (num_edges > 0)` spins
forever and `num_edges` never reaches 0. -/
theorem C1_float_collapse_cex :
    Valid ptsBig
    ∧ castPts ptsBig = ptsCol
    ∧ fuelFor ptsBig = 2
    ∧ (run (mkCtx (castPts ptsBig)) 2 (initState (castPts ptsBig))).num_edges = 2
    ∧ commit (mkCtx (castPts ptsBig))
        (run (mkCtx (castPts ptsBig)) 2 (initState (castPts ptsBig)))
      = run (mkCtx (castPts ptsBig)) 2 (initState (castPts ptsBig)) := by
  rw [ptsBig_cast]
  refine ⟨by decide, rfl, by decide, ?_, ?_⟩
  · rw [ptsCol_run2]
    exact ptsCol_commit_edges
  · rw [ptsCol_run2]
    exact ptsCol_fix

/-- C2 counterexample: the claim, as stated, asserts for every iteration
with links remaining that the committed candidate is a non-consumed
candidate of maximal score.  In the float execution on `ptsBig` (exactly
the rational engine on the collapsed coordinates `castPts ptsBig`), after
one loop iteration links remain (`num_edges = 2`) yet the selection
returns slot 0, which is already consumed (`lines[0] = NULL`), so the
iteration commits no live candidate at all. -/
theorem C2_float_collapse_cex :
    Valid ptsBig
    ∧ castPts ptsBig = ptsCol
    ∧ 0 < (reachState (castPts ptsBig) 1).num_edges
    ∧ (reachState (castPts ptsBig) 1).lines.getD
        (selectIdx (mkCtx (castPts ptsBig)) (reachState (castPts ptsBig) 1)).2 none = none := by
  rw [ptsBig_cast]
  have hr1 : reachState ptsCol 1 = commit (mkCtx ptsCol) (initState ptsCol) := ptsCol_run1
  refine ⟨by decide, rfl, ?_, ?_⟩
  · rw [hr1, ptsCol_commit_edges]
    omega
  · rw [hr1]
    have hsel1 : selectIdx (mkCtx ptsCol) (commit (mkCtx ptsCol) (initState ptsCol))
        = (0, 0) := selectIdx_all_zero (mkCtx ptsCol) ptsCol_st1_scores
    rw [hsel1, ptsCol_commit_lines]
    rfl

/-- C8 counterexample: the claim, as stated, asserts a strict decrease of
`num_edges` on every commit while links remain, with the chosen candidate
scoring at least 1.  In the float execution on `ptsBig` (exactly the
rational engine on the collapsed coordinates `castPts ptsBig`), at the
very first iteration 2 links remain, the selected candidate scores 0, and
the commit leaves `num_edges` unchanged at 2. -/
theorem C8_float_collapse_cex :
    Valid ptsBig
    ∧ castPts ptsBig = ptsCol
    ∧ 0 < (initState (castPts ptsBig)).num_edges
    ∧ (selectIdx (mkCtx (castPts ptsBig)) (initState (castPts ptsBig))).1 = 0
    ∧ (commit (mkCtx (castPts ptsBig)) (initState (castPts ptsBig))).num_edges
        = (initState (castPts ptsBig)).num_edges := by
  rw [ptsBig_cast]
  refine ⟨by decide, rfl, by decide, ?_, ?_⟩
  · rw [ptsCol_sel0]
  · rw [ptsCol_commit_edges, ptsCol_edges2]

end SepPoints

